import Mathlib

/-!
Verification of `openscad_release_tool.py` against its specification.

The development shallowly embeds the Python source: POSIX path-string
operations (`os.path.join`, `os.path.dirname`, …) are modelled as Lean
functions on `String`, the filesystem as an association list from path
strings to file contents (`List Char`), and the per-character parser
state machine `CopyAndParse` as an executable step function.  Recursive
copying is modelled with an explicit fuel parameter (the Python code has
no fuel; `Err.outOfFuel` is a modelling artifact that marks exhaustion of
the recursion budget, never a behavior of the program).

Modelling conventions, stated once here:
* Paths handed to the model are absolute and normalized (no `.`/`..`
  segments, no trailing slash), so `os.path.abspath` is the identity on
  them; relative paths (which Python would resolve against the process
  working directory) are kept as-is and simply never collide with the
  absolute keys of the filesystem.
* Directories are not modelled separately: `os.makedirs` is a no-op and
  `os.path.exists` is file existence.  The program only ever queries
  existence of candidate files, output targets, or uses `makedirs`.
* Python `set` iteration order is nondeterministic; the model
  determinizes sets as insertion-ordered lists.  The same determinization
  is used for `glob.glob` result order (directory order in Python).
* The output file handle opened by `run` is modelled as a buffer that is
  flushed into the filesystem when the scan of one file finishes; the
  file itself is created (empty) at open time, exactly as `open(p, 'w')`
  creates it before the first character is processed.
* Logging is ignored.  `readFiles` on `World` is ghost bookkeeping that
  records each `fin.read` of a source file performed by `run`.
-/

namespace OSRT

/-! ## Python string/path primitives -/

/-- Python `s.startswith(pre)`. -/
def pyStartswith (s pre : String) : Bool := pre.data.isPrefixOf s.data

/-- Python `s.endswith(suf)`. -/
def pyEndswith (s suf : String) : Bool := suf.data.isSuffixOf s.data

/-- Index of the first `'/'` in a character list, if any. -/
def firstIdxSlash : List Char → Option Nat
  | [] => none
  | c :: t => if c = '/' then some 0 else (firstIdxSlash t).map (fun j => j + 1)

/-- Index of the last `'/'` in a character list, if any (Python `rfind('/')`). -/
def rfindSlash (l : List Char) : Option Nat :=
  (firstIdxSlash l.reverse).map (fun j => l.length - 1 - j)

/-- Strip trailing slashes (Python `str.rstrip('/')`). -/
def rstripSlash (l : List Char) : List Char := (l.reverse.dropWhile (fun c => c = '/')).reverse

/-- `os.path.dirname` for POSIX paths, following `posixpath.split`:
the part before the last `'/'`, with trailing slashes stripped unless the
head consists only of slashes. -/
def os_dirname (p : String) : String :=
  match rfindSlash p.data with
  | none => ""
  | some i =>
    let head := p.data.take (i + 1)
    if head.all (fun c => c = '/') then String.mk head else String.mk (rstripSlash head)

/-- `os.path.basename` (tail of `os.path.split`). -/
def os_basename (p : String) : String :=
  match rfindSlash p.data with
  | none => p
  | some i => String.mk (p.data.drop (i + 1))

/-- `os.path.join` for two POSIX path components. -/
def os_join (a b : String) : String :=
  if pyStartswith b "/" then b
  else if a = "" then b
  else if pyEndswith a "/" then String.mk (a.data ++ b.data)
  else String.mk (a.data ++ '/' :: b.data)

/-- `os.path.abspath`, restricted to the modelling convention that input
paths are already absolute and normalized, on which it is the identity. -/
def os_abspath (p : String) : String := p

/-- Split a character list at `'/'` (used by `os.path.relpath`). -/
def splitSlash : List Char → List (List Char)
  | [] => [[]]
  | c :: t =>
    let r := splitSlash t
    if c = '/' then [] :: r
    else
      match r with
      | h :: t2 => (c :: h) :: t2
      | [] => [[c]]

/-- Join path components with `'/'`. -/
def joinSlash : List (List Char) → List Char
  | [] => []
  | [x] => x
  | x :: xs => x ++ '/' :: joinSlash xs

/-- Nonempty components of a POSIX path. -/
def pathComps (p : String) : List (List Char) := (splitSlash p.data).filter (fun c => c ≠ [])

/-- Length of the common prefix of two component lists. -/
def commonLen : List (List Char) → List (List Char) → Nat
  | a :: as, b :: bs => if a = b then commonLen as bs + 1 else 0
  | _, _ => 0

/-- `os.path.relpath(path, start)` for absolute normalized POSIX paths,
following `posixpath.relpath`: strip the common component prefix, ascend
with `..` for each remaining `start` component, then descend into the
remaining `path` components. -/
def os_relpath (path start : String) : String :=
  let pl := pathComps path
  let sl := pathComps start
  let i := commonLen sl pl
  let rel := List.replicate (sl.length - i) ('.' :: '.' :: []) ++ pl.drop i
  if rel = [] then "." else String.mk (joinSlash rel)

/-- Remove every (non-overlapping, left-to-right) occurrence of the
three-character separator `' \n\t'`: Python `''.join(word.split(' \n\t'))`
in `_looking_for_import`. -/
def pyStripSep : List Char → List Char
  | ' ' :: '\n' :: '\t' :: t => pyStripSep t
  | c :: t => c :: pyStripSep t
  | [] => []

/-- Index of the first occurrence of `pat` in `l` (Python `str.find`). -/
def pyFind (pat : List Char) : List Char → Option Nat
  | [] => if pat.isPrefixOf ([] : List Char) then some 0 else none
  | c :: t => if pat.isPrefixOf (c :: t) then some 0 else (pyFind pat t).map (fun j => j + 1)

/-- Whether `pat` occurs as a contiguous substring of `l`. -/
def containsSub (pat l : List Char) : Bool := (pyFind pat l).isSome

/-- Python `'%s' % list_of_strings`: `['a', 'b']`. -/
def pyReprStrList (l : List String) : String :=
  "[" ++ String.intercalate ", " (l.map (fun p => "'" ++ p ++ "'")) ++ "]"

/-! ## Filesystem and world state -/

/-- The filesystem: an association list from (path, file content). -/
abbrev Fs := List (String × List Char)

def fsLookup : Fs → String → Option (List Char)
  | [], _ => none
  | (q, v) :: t, p => if q = p then some v else fsLookup t p

/-- `os.path.exists` (files only; see the modelling conventions). -/
def fsExists (fs : Fs) (p : String) : Bool := (fsLookup fs p).isSome

/-- Create or overwrite the file at `p` with content `v`. -/
def fsWrite : Fs → String → List Char → Fs
  | [], p, v => [(p, v)]
  | (q, u) :: t, p, v => if q = p then (p, v) :: t else (q, u) :: fsWrite t p v

/-- Traversal state shared across the whole recursive copy:
the filesystem, `used_library_dirs` (insertion-ordered), and the ghost
record of source files read by the scanner. -/
structure World where
  fs : Fs
  used : List String
  readFiles : List String
deriving DecidableEq, Repr

/-- Error conditions raised by the program (each carries the formatted
message where the claims are about message content). -/
inductive Err where
  | outOfFuel
  | inputNotFound (path : String)
  | importNotFound (msg : String)
  | includeNotFound (msg : String)
  | stopIteration
deriving DecidableEq, Repr

/-- Python `set.add` on the insertion-ordered list determinization. -/
def addToSet (l : List String) (x : String) : List String := if x ∈ l then l else l ++ [x]

/-! ## CopyAndParse -/

/-- The per-instance fields of `CopyAndParse`. -/
structure Ctx where
  source_path : String
  lib_dirname : String
  root_input_dir : String
  root_output_dir : String
  target_path : String
  ignore_imports : Bool
deriving DecidableEq, Repr

/-- `CopyAndParse.__init__`.  It records `abspath(dirname(source_path))`
into `used_library_dirs`.  Note: the Python constructor receives
`root_input_dir` but never assigns `self.root_input_dir`, so every
instance keeps the class-attribute default `''`; the parameter is
accordingly unused here. -/
def copyAndParse_init (source_path lib_dirname _root_input_dir root_output_dir
    target_path : String) (ignore_imports : Bool) (w : World) : Ctx × World :=
  ({ source_path := source_path
     lib_dirname := lib_dirname
     root_input_dir := ""
     root_output_dir := root_output_dir
     target_path := target_path
     ignore_imports := ignore_imports },
   { w with used := addToSet w.used (os_abspath (os_dirname source_path)) })

/-- The parser states (one per bound-method state function). -/
inductive St where
  | lookingForWord
  | buildingWord
  | lookingForEol
  | lookingForEndOfComment
  | lookingForSemicolon
  | lookingForImport
  | buildImportPath
  | lookingForInclude
  | buildingIncludePath
deriving DecidableEq, Repr

/-- The `a-zA-Z0-9_` test of `_building_word`. -/
def isWordChar (c : Char) : Bool :=
  if ('A' ≤ c ∧ c ≤ 'Z') ∨ ('a' ≤ c ∧ c ≤ 'z') ∨ ('0' ≤ c ∧ c ≤ '9') ∨ c = '_'
  then true else false

/-- `self.file_chars[-2]`: the character before the current one (the run
loop appends the current character before dispatching). -/
def fcPrev (fc : List Char) : Option Char := fc.dropLast.getLast?

/-- `_looking_for_word`.  Writes `c`, stays on whitespace, otherwise
resets `file_chars` to `[c]` and moves to word building.  Result is
(next state, `file_chars`, output buffer). -/
def st_looking_for_word (fc : List Char) (c : Char) (buf : List Char) :
    St × List Char × List Char :=
  let buf := buf ++ [c]
  if c = '\n' ∨ c = ' ' ∨ c = '\t' then (.lookingForWord, fc, buf)
  else (.buildingWord, [c], buf)

/-- `_looking_for_include`.  `fout` is false when the call is the replay
invocation from `_building_word` (Python passes `fout=None`). -/
def st_looking_for_include (fc : List Char) (c : Char) (fout : Bool) (buf : List Char) :
    St × List Char × List Char :=
  let buf := if fout then buf ++ [c] else buf
  if c = ' ' ∨ c = '\t' ∨ c = '\n' then (.lookingForInclude, fc, buf)
  else if c = '<' then (.buildingIncludePath, [], buf)
  else (.lookingForWord, fc, buf)

/-- `_looking_for_import` (same `fout=None` replay convention). -/
def st_looking_for_import (fc : List Char) (c : Char) (fout : Bool) (buf : List Char) :
    St × List Char × List Char :=
  let buf := if fout then buf ++ [c] else buf
  if c = ')' then (.lookingForWord, fc, buf)
  else if c ≠ '"' then (.lookingForImport, fc, buf)
  else
    let word := String.mk (pyStripSep fc)
    if ¬ pyEndswith word "(\"" ∧ ¬ pyEndswith word "file=\"" then (.lookingForImport, fc, buf)
    else (.buildImportPath, [], buf)

/-- `_building_word`.  The comment tests look at the previous character;
at word end the keyword cases replay the terminator into the next state
with writing suppressed, the non-keyword case returns the scanning state
without replaying. -/
def st_building_word (ignore_imports : Bool) (fc : List Char) (c : Char) (buf : List Char) :
    St × List Char × List Char :=
  let buf := buf ++ [c]
  if c = '/' ∧ fcPrev fc = some '/' then (.lookingForEol, fc, buf)
  else if c = '*' ∧ fcPrev fc = some '/' then (.lookingForEndOfComment, fc, buf)
  else if isWordChar c then (.buildingWord, fc, buf)
  else
    let word := String.mk fc.dropLast
    if word = "include" ∨ word = "use" then st_looking_for_include fc c false buf
    else if word = "import" ∧ ignore_imports = false then st_looking_for_import fc c false buf
    else (.lookingForWord, fc, buf)

/-- `_looking_for_eol`. -/
def st_looking_for_eol (fc : List Char) (c : Char) (fout : Bool) (buf : List Char) :
    St × List Char × List Char :=
  let buf := if fout then buf ++ [c] else buf
  if c ≠ '\n' then (.lookingForEol, fc, buf) else (.lookingForWord, fc, buf)

/-- `_looking_for_end_of_comment`. -/
def st_looking_for_end_of_comment (fc : List Char) (c : Char) (buf : List Char) :
    St × List Char × List Char :=
  let buf := buf ++ [c]
  if c = '/' ∧ fcPrev fc = some '*' then (.lookingForWord, fc, buf)
  else (.lookingForEndOfComment, fc, buf)

/-- `_looking_for_semicolon`. -/
def st_looking_for_semicolon (fc : List Char) (c : Char) (fout : Bool) (buf : List Char) :
    St × List Char × List Char :=
  let buf := if fout then buf ++ [c] else buf
  if c ≠ ';' then (.lookingForSemicolon, fc, buf) else (.lookingForWord, fc, buf)

/-- The rewrite of an absolute import path: strip the leading separator,
then cut everything through the first drive marker `:\`. -/
def import_strip_abs (p : String) : String :=
  let nip := if pyStartswith p "/" then String.mk (p.data.drop 1) else p
  match pyFind (':' :: '\\' :: []) nip.data with
  | some i => String.mk (nip.data.drop (i + 2))
  | none => nip

/-- The first candidate source location and the rewritten literal for
an import path (the three cases of `_build_import_path`: absolute, and
relative which is used as-is). -/
def import_candidates (ctx : Ctx) (import_path : String) : String × String :=
  if pyStartswith import_path "/" then
    (import_path, os_join ctx.lib_dirname (import_strip_abs import_path))
  else
    (os_join (os_dirname ctx.source_path) import_path, import_path)

/-- The candidate after the existence fallback: if the first candidate
is missing, retry relative to `dirname(self.root_input_dir)`. -/
def import_abs (ctx : Ctx) (fs : Fs) (import_path : String) : String :=
  if fsExists fs (import_candidates ctx import_path).1 then (import_candidates ctx import_path).1
  else os_join (os_dirname ctx.root_input_dir) import_path

/-- `_build_import_path`.  On the closing quote: resolve the literal
(absolute-path rewrite, relative resolution with the
`dirname(self.root_input_dir)` fallback), raise `ImportNotFoundError` if
still missing, copy to the target unless it already exists, and write the
rewritten literal plus the quote. -/
def st_build_import_path (ctx : Ctx) (fc : List Char) (c : Char) (buf : List Char)
    (w : World) : Except Err (St × List Char × List Char × World) :=
  if c ≠ '"' then .ok (.buildImportPath, fc, buf, w)
  else
    let import_path := String.mk fc.dropLast
    let import_abs_path := import_abs ctx w.fs import_path
    if ¬ fsExists w.fs import_abs_path then
      .error (.importNotFound
        ("Could not find import path (" ++ import_path ++ ") in " ++ import_abs_path))
    else
      let target_path := os_join ctx.root_output_dir (import_candidates ctx import_path).2
      let w2 :=
        if fsExists w.fs target_path then w
        else { w with fs := fsWrite w.fs target_path ((fsLookup w.fs import_abs_path).getD []) }
      .ok (.lookingForSemicolon, fc, buf ++ (import_candidates ctx import_path).2.data ++ [c], w2)

/-- `_find_included_file`: relative-to-source resolution first, then the
configured include paths in order; failure raises `IncludeNotFoundError`
whose message interpolates the include path, the directory of the
*target* path, and the include-path list. -/
def find_included_file (inc : List String) (ctx : Ctx) (fs : Fs) (include_path : String) :
    Except Err (String × String × String) :=
  let source_dir := os_dirname ctx.source_path
  let output_dir := os_dirname ctx.target_path
  if fsExists fs (os_join source_dir include_path) then
    .ok (os_join source_dir include_path, os_join output_dir include_path, include_path)
  else
    match inc.find? (fun pre => fsExists fs (os_join pre include_path)) with
    | some pre =>
      let output_path := os_join (os_join ctx.root_output_dir ctx.lib_dirname) include_path
      .ok (os_join pre include_path, output_path, os_relpath output_path output_dir)
    | none =>
      .error (.includeNotFound
        ("Could not find " ++ include_path ++ " in " ++ output_dir ++ " or "
          ++ pyReprStrList inc))

/-- The character loop of `CopyAndParse.run`, for one source file.
`nested` is the recursive `CopyAndParse(...).run()` invocation available
one recursion level down; `fc` is `self.file_chars`, `buf` the pending
output of the open target handle, `cs` the remaining input characters.
When the input is exhausted the handle is closed, flushing `buf` into
the target file. -/
def runLoopF (nested : Ctx → World → Except Err World) (inc : List String) (ctx : Ctx) :
    St → List Char → List Char → List Char → World → Except Err World
  | _, _, buf, [], w => .ok { w with fs := fsWrite w.fs ctx.target_path buf }
  | st, fc, buf, c :: rest, w =>
    let fc' := fc ++ [c]
    match st with
    | .lookingForWord =>
      match st_looking_for_word fc' c buf with
      | (st2, fc2, buf2) => runLoopF nested inc ctx st2 fc2 buf2 rest w
    | .buildingWord =>
      match st_building_word ctx.ignore_imports fc' c buf with
      | (st2, fc2, buf2) => runLoopF nested inc ctx st2 fc2 buf2 rest w
    | .lookingForEol =>
      match st_looking_for_eol fc' c true buf with
      | (st2, fc2, buf2) => runLoopF nested inc ctx st2 fc2 buf2 rest w
    | .lookingForEndOfComment =>
      match st_looking_for_end_of_comment fc' c buf with
      | (st2, fc2, buf2) => runLoopF nested inc ctx st2 fc2 buf2 rest w
    | .lookingForSemicolon =>
      match st_looking_for_semicolon fc' c true buf with
      | (st2, fc2, buf2) => runLoopF nested inc ctx st2 fc2 buf2 rest w
    | .lookingForImport =>
      match st_looking_for_import fc' c true buf with
      | (st2, fc2, buf2) => runLoopF nested inc ctx st2 fc2 buf2 rest w
    | .lookingForInclude =>
      match st_looking_for_include fc' c true buf with
      | (st2, fc2, buf2) => runLoopF nested inc ctx st2 fc2 buf2 rest w
    | .buildImportPath =>
      match st_build_import_path ctx fc' c buf w with
      | .error e => .error e
      | .ok (st2, fc2, buf2, w2) => runLoopF nested inc ctx st2 fc2 buf2 rest w2
    | .buildingIncludePath =>
      if c = '>' then
        let include_path := String.mk fc'.dropLast
        match find_included_file inc ctx w.fs include_path with
        | .error e => .error e
        | .ok stn =>
          let buf := buf ++ stn.2.2.data ++ [c]
          match copyAndParse_init stn.1 ctx.lib_dirname ctx.root_input_dir
              ctx.root_output_dir stn.2.1 ctx.ignore_imports w with
          | (ctx2, w2) =>
            match nested ctx2 w2 with
            | .error e => .error e
            | .ok w3 => runLoopF nested inc ctx .lookingForWord fc' buf rest w3
      else runLoopF nested inc ctx .buildingIncludePath fc' buf rest w

/-- `CopyAndParse.run`, with explicit recursion fuel.  If the target
already exists the call returns at once.  Otherwise the source is read,
the target is created (opened for writing) before the first character is
processed, and the character loop runs with the recursive invocation one
fuel level down. -/
def runCAP : Nat → List String → Ctx → World → Except Err World
  | 0, _, _, _ => .error .outOfFuel
  | fuel + 1, inc, ctx, w =>
    if fsExists w.fs ctx.target_path then .ok w
    else
      match fsLookup w.fs ctx.source_path with
      | none => .error (.inputNotFound ctx.source_path)
      | some file_data =>
        let w1 : World :=
          { fs := fsWrite w.fs ctx.target_path []
            used := w.used
            readFiles := w.readFiles ++ [ctx.source_path] }
        runLoopF (runCAP fuel inc) inc ctx .lookingForWord [] [] file_data w1

/-! ## License sweep (`_find_license_files`) -/

/-- `contains_a_stop_path`: some stop path is a *string* prefix of the
directory (Python `startswith`). -/
def contains_a_stop_path (stop_paths : List String) (library_dir : String) : Bool :=
  stop_paths.any (fun p => pyStartswith library_dir p)

/-- `copy_file` inside `_find_license_files`.  Deduplicates by absolute
source path (`already_copied`), picks the first stop path that is a
string prefix of the source (Python `next(...)`, which raises
`StopIteration` when nothing matches), and copies to the output library
directory at the source path cut after that stop path. -/
def license_copy_file (output_library_dir : String) (stop_paths : List String)
    (st : Fs × List String) (path : String) : Except Err (Fs × List String) :=
  if path ∈ st.2 then .ok st
  else
    match stop_paths.find? (fun p => pyStartswith path p) with
    | none => .error .stopIteration
    | some p =>
      let output_path :=
        os_join output_library_dir (String.mk (path.data.drop (p.data.length + 1)))
      .ok (fsWrite st.1 output_path ((fsLookup st.1 path).getD []), st.2 ++ [path])

/-- `glob.glob(os.path.join(dir, '*' ++ ext))` on the modelled
filesystem: direct children of `dir` whose name ends in `ext` and does
not start with a dot (glob's hidden-file rule). -/
def globMatch (dir : String) (ext : List Char) (p : String) : Bool :=
  let pre := if pyEndswith dir "/" then dir.data else dir.data ++ ['/']
  let nm := p.data.drop pre.length
  pre.isPrefixOf p.data &&
    (!nm.isEmpty && nm.head? != some '.' && !nm.contains '/' && ext.isSuffixOf nm)

def globDir (fs : Fs) (dir : String) (ext : List Char) : List String :=
  (fs.map Prod.fst).filter (globMatch dir ext)

/-- Copy each listed file in order. -/
def foldCopy (out_lib : String) (stops : List String) :
    List String → Fs × List String → Except Err (Fs × List String)
  | [], st => .ok st
  | p :: t, st =>
    match license_copy_file out_lib stops st p with
    | .error e => .error e
    | .ok st2 => foldCopy out_lib stops t st2

/-- `find_files` inside `_find_license_files`: the exact names
`COPYING`/`README`, then the glob patterns, each evaluated against the
filesystem as it stands when that step runs. -/
def license_find_files (out_lib : String) (stops : List String) (dir : String)
    (st0 : Fs × List String) : Except Err (Fs × List String) :=
  match (if fsExists st0.1 (os_join dir "COPYING")
      then license_copy_file out_lib stops st0 (os_join dir "COPYING") else .ok st0) with
  | .error e => .error e
  | .ok st1 =>
    match (if fsExists st1.1 (os_join dir "README")
        then license_copy_file out_lib stops st1 (os_join dir "README") else .ok st1) with
    | .error e => .error e
    | .ok st2 =>
      match foldCopy out_lib stops (globDir st2.1 dir ('.' :: 'm' :: 'd' :: [])) st2 with
      | .error e => .error e
      | .ok st3 =>
        match foldCopy out_lib stops (globDir st3.1 dir ('.' :: 'M' :: 'D' :: [])) st3 with
        | .error e => .error e
        | .ok st4 =>
          match foldCopy out_lib stops
              (globDir st4.1 dir ('.' :: 't' :: 'x' :: 't' :: [])) st4 with
          | .error e => .error e
          | .ok st5 =>
            foldCopy out_lib stops (globDir st5.1 dir ('.' :: 'T' :: 'X' :: 'T' :: [])) st5

/-- The `while True` upward walk of `_find_license_files` for one
contributing directory: process the level, stop if it is exactly a stop
path, else ascend with `dirname`.  The Python loop has no fuel; the fuel
marks the modelling recursion budget.  The returned list is the ghost
trace of the directory levels processed, in order. -/
def license_walk (fuelW : Nat) (out_lib : String) (stops : List String) (d : String)
    (st : Fs × List String) : Except Err ((Fs × List String) × List String) :=
  match fuelW with
  | 0 => .error .outOfFuel
  | f + 1 =>
    match license_find_files out_lib stops d st with
    | .error e => .error e
    | .ok st2 =>
      if d ∈ stops then .ok (st2, [d])
      else
        match license_walk f out_lib stops (os_dirname d) st2 with
        | .error e => .error e
        | .ok (st3, vs) => .ok (st3, d :: vs)

/-- The per-contributing-directory loop of `_find_license_files`:
directories with no stop-path string prefix are warned about and
skipped, the rest are walked upward. -/
def sweepDirs (fuelW : Nat) (out_lib : String) (stops : List String) :
    List String → Fs × List String → Except Err (Fs × List String)
  | [], st => .ok st
  | d :: t, st =>
    if contains_a_stop_path stops d then
      match license_walk fuelW out_lib stops d st with
      | .error e => .error e
      | .ok (st2, _) => sweepDirs fuelW out_lib stops t st2
    else sweepDirs fuelW out_lib stops t st

/-- `_find_license_files`: build the stop-path set (include paths plus
the project directory, absolute, insertion-ordered), then sweep every
used library directory with a shared `already_copied` set. -/
def find_license_files (fuelW : Nat) (inc : List String)
    (project_dir output_library_dir : String) (used : List String) (fs : Fs) :
    Except Err Fs :=
  let stops := addToSet ((inc.map os_abspath).foldl addToSet []) (os_abspath project_dir)
  match sweepDirs fuelW output_library_dir stops used (fs, []) with
  | .error e => .error e
  | .ok st => .ok st.1

/-- `create_release_directory` without the `_prepare` validation glue
(input-existence and output-directory checks, excluded by the spec as
caller-side validation): run the traversal from the entry file, then the
license sweep over the accumulated directory set. -/
def create_release_directory (fuel fuelW : Nat) (inc : List String)
    (pathname root_output_dir lib_dirname : String) (ignore_imports : Bool) (fs : Fs) :
    Except Err World :=
  let pathname := os_abspath pathname
  let filename := os_basename pathname
  let w0 : World := { fs := fs, used := [], readFiles := [] }
  match copyAndParse_init pathname lib_dirname (os_dirname pathname) root_output_dir
      (os_join root_output_dir filename) ignore_imports w0 with
  | (ctx, w1) =>
    match runCAP fuel inc ctx w1 with
    | .error e => .error e
    | .ok w2 =>
      match find_license_files fuelW inc (os_dirname pathname)
          (os_join root_output_dir lib_dirname) w2.used w2.fs with
      | .error e => .error e
      | .ok fs2 => .ok { w2 with fs := fs2 }

/-! ## Auxiliary definitions used only to state claims -/

/-- Modelled from the spec (§4.1 *BuildingToken*, non-keyword word end):
the spec demands that on a terminator ending a non-keyword token the
scanner "return to *ScanningText*, replaying the terminator" with the
same replay rule as the keyword cases (the terminator is written exactly
once, by *BuildingToken*, and is then fed to the new state as input).
This is the spec's transition, for comparison with `st_building_word`. -/
def spec_end_of_token (fc : List Char) (c : Char) (buf : List Char) :
    St × List Char × List Char :=
  let buf := buf ++ [c]
  if c = '\n' ∨ c = ' ' ∨ c = '\t' then (.lookingForWord, fc, buf)
  else (.buildingWord, [c], buf)

/-- Whether the adjacent pair `*/` occurs somewhere in the list (the
block-comment close that `_looking_for_end_of_comment` watches for). -/
def hasCloseAdj : List Char → Bool
  | [] => false
  | [_] => false
  | a :: b :: t => if a = '*' ∧ b = '/' then true else hasCloseAdj (b :: t)

/-- `d` is `b` itself or lies componentwise below `b`. -/
def isUnderOrEq (b d : String) : Bool := (d = b) || pyStartswith d (String.mk (b.data ++ ['/']))

/-- Extend a base directory by a list of path components. -/
def mkPath (b : String) (comps : List (List Char)) : String :=
  comps.foldl (fun acc x => String.mk (acc.data ++ '/' :: x)) b

/-! ## The pure state trace of the scanner

Every state function of the scanner except `_build_import_path` and
`_building_include_path` writes the current character exactly once and
touches nothing but (state, `file_chars`); the two path-building states
are the only ones that consume characters without writing them (and the
only ones that can trigger resolution).  `scanStep` projects the
transition of the seven copying states out of the very step functions
used by the run loop (the output buffer is passed as `[]` and
discarded, which is sound because the step functions never read it). -/

/-- States in which the scanner copies its input verbatim: every state
except the two reference-path builders. -/
def verbSt : St → Bool
  | .buildingIncludePath => false
  | .buildImportPath => false
  | _ => true

/-- The (state, `file_chars`) transition of one scanner step, projected
from the step functions themselves.  As in the run loop, the current
character is appended to `file_chars` before dispatch. -/
def scanStep (ii : Bool) (st : St) (fc : List Char) (c : Char) : St × List Char :=
  let fc' := fc ++ [c]
  match st with
  | .lookingForWord =>
    ((st_looking_for_word fc' c []).1, (st_looking_for_word fc' c []).2.1)
  | .buildingWord =>
    ((st_building_word ii fc' c []).1, (st_building_word ii fc' c []).2.1)
  | .lookingForEol =>
    ((st_looking_for_eol fc' c true []).1, (st_looking_for_eol fc' c true []).2.1)
  | .lookingForEndOfComment =>
    ((st_looking_for_end_of_comment fc' c []).1, (st_looking_for_end_of_comment fc' c []).2.1)
  | .lookingForSemicolon =>
    ((st_looking_for_semicolon fc' c true []).1, (st_looking_for_semicolon fc' c true []).2.1)
  | .lookingForImport =>
    ((st_looking_for_import fc' c true []).1, (st_looking_for_import fc' c true []).2.1)
  | .lookingForInclude =>
    ((st_looking_for_include fc' c true []).1, (st_looking_for_include fc' c true []).2.1)
  | .buildImportPath => (.buildImportPath, fc')
  | .buildingIncludePath => (.buildingIncludePath, fc')

/-- Run the scanner's pure state trace over a character list, failing
(`none`) as soon as it would enter one of the two reference-path
building states. -/
def scanTxt (ii : Bool) : St → List Char → List Char → Option (St × List Char)
  | st, fc, [] => some (st, fc)
  | st, fc, c :: rest =>
    match scanStep ii st fc c with
    | (st2, fc2) => if verbSt st2 then scanTxt ii st2 fc2 rest else none

/-- A file contains no include/use/import reference exactly when the
scanner, started fresh on it, never begins consuming a reference path:
no un-commented `include`/`use` token is ever followed by `<`, and no
un-commented `import` token reaches an opening `("` / `file="` (a file
with an unclosed `include <...` fragment contains a truncated reference
and is deliberately outside this class). -/
def referenceFree (ii : Bool) (data : List Char) : Bool :=
  (scanTxt ii .lookingForWord [] data).isSome

/-! ## Dependency graphs of include/use references

A `GNode` is one source file of a bundle: its source path, its output
target path, and its content given as a list of items, each item either
a plain text chunk or an `include <...>`/`use <...>` reference to
another node (by index), carrying the literal as it stands in the file
and the rewritten literal that resolution produces.  The well-formedness
predicate `GraphWF` states, per edge, exactly what `_find_included_file`
returns for that literal on any filesystem consisting of the sources
plus any subset of the targets; the adjacency is otherwise arbitrary, so
cycles of any length, self-includes and diamonds are all instances. -/

inductive GItem where
  | txt (s : List Char)
  | ref (use : Bool) (lit : List Char) (rew : String) (j : Nat)

structure GNode where
  src : String
  tgt : String
  items : List GItem

/-- The keyword-plus-bracket opener of a reference statement. -/
def kwData (u : Bool) : List Char := if u then "use <".data else "include <".data

/-- An item as it stands in the source file. -/
def renderIn : GItem → List Char
  | .txt s => s
  | .ref u lit _ _ => kwData u ++ lit ++ ['>']

/-- An item as the scanner writes it to the output (the reference
literal replaced by the rewritten one). -/
def renderOut : GItem → List Char
  | .txt s => s
  | .ref u _ rew _ => kwData u ++ rew.data ++ ['>']

def contentIn (n : GNode) : List Char := (n.items.map renderIn).flatten

def contentOut (n : GNode) : List Char := (n.items.map renderOut).flatten

def nodeAt (g : List GNode) (k : Nat) : GNode := g.getD k ⟨"", "", []⟩

/-- The initial filesystem: every node's source file with its content. -/
def srcEntries (g : List GNode) : Fs := g.map (fun n => (n.src, contentIn n))

/-- The parser context with which node `k` is (recursively) processed. -/
def ctxOf (lib out : String) (ii : Bool) (g : List GNode) (k : Nat) : Ctx :=
  { source_path := (nodeAt g k).src
    lib_dirname := lib
    root_input_dir := ""
    root_output_dir := out
    target_path := (nodeAt g k).tgt
    ignore_imports := ii }

/-- The target entry of a visited node: still empty while the node is
on the pending stack `P` (created at entry, flushed at scan end). -/
def tgtEntryG (g : List GNode) (P : List Nat) (k : Nat) : String × List Char :=
  ((nodeAt g k).tgt, if k ∈ P then [] else contentOut (nodeAt g k))

/-- The contributing-directory set after visiting `V` in order. -/
def usedFold (g : List GNode) (V : List Nat) (u0 : List String) : List String :=
  V.foldl (fun u k => addToSet u (os_abspath (os_dirname (nodeAt g k).src))) u0

/-- The world after the nodes `V` have been visited in that order, with
the nodes in `P` still pending. -/
def worldOf (g : List GNode) (V P : List Nat) (u0 rf0 : List String) : World :=
  { fs := srcEntries g ++ V.map (tgtEntryG g P)
    used := usedFold g V u0
    readFiles := rf0 ++ V.map (fun k => (nodeAt g k).src) }

/-- Node `k` references node `m`. -/
def Edge (g : List GNode) (k m : Nat) : Prop :=
  ∃ it ∈ (nodeAt g k).items, ∃ u lit rew, it = GItem.ref u lit rew m

/-- Reachability along reference edges. -/
inductive Reach (g : List GNode) (e : Nat) : Nat → Prop
  | refl : Reach g e e
  | step {k m : Nat} : Reach g e k → Edge g k m → Reach g e m

/-- Well-formedness of one item of node `i`: a text chunk keeps the
scanner in the copying states and returns it to the scanning state; a
reference names a node of the graph, its literal contains no `>`, and
`_find_included_file` resolves it — on the sources plus any collection
of target files — to that node's source and target and to the recorded
rewritten literal. -/
def ItemWF (inc : List String) (lib out : String) (ii : Bool) (g : List GNode)
    (i : Nat) : GItem → Prop
  | .txt s => ∃ fcEnd, scanTxt ii .lookingForWord [] s = some (.lookingForWord, fcEnd)
  | .ref _ lit rew j => j < g.length ∧ '>' ∉ lit ∧
      ∀ extra : Fs, (∀ p ∈ extra.map Prod.fst, p ∈ g.map GNode.tgt) →
        find_included_file inc (ctxOf lib out ii g i) (srcEntries g ++ extra)
          (String.mk lit) = .ok ((nodeAt g j).src, (nodeAt g j).tgt, rew)

/-- Well-formedness of a dependency graph: distinct source paths,
distinct target paths, no target colliding with a source, and every
item of every node well-formed. -/
def GraphWF (inc : List String) (lib out : String) (ii : Bool) (g : List GNode) : Prop :=
  (g.map GNode.src).Nodup ∧ (g.map GNode.tgt).Nodup ∧
  (∀ t ∈ g.map GNode.tgt, t ∉ g.map GNode.src) ∧
  (∀ i, i < g.length → ∀ it ∈ (nodeAt g i).items, ItemWF inc lib out ii g i it)

/-- The visited list is sane: no duplicates, all indices in range, and
every pending node is visited. -/
def VGood (g : List GNode) (V P : List Nat) : Prop :=
  V.Nodup ∧ (∀ k ∈ V, k < g.length) ∧ (∀ k ∈ P, k ∈ V)

/-- Every completed (visited, not pending) node has all its reference
targets visited. -/
def Closed (g : List GNode) (V P : List Nat) : Prop :=
  ∀ k ∈ V, k ∉ P → ∀ m, Edge g k m → m ∈ V

/-- A concrete four-node dependency graph used to instantiate the graph
theorems: the entry file references two library files that include each
other (a cycle living under the library root, each also reachable from
the entry, forming a diamond) and a file in a subdirectory of the
project; the text chunks contain commented-out references, keyword
lookalikes and a keyword without a bracket. -/
def gW : List GNode :=
  [⟨"/proj/main.scad", "/out/main.scad",
     [GItem.txt "// use <ghost.scad>;\n".data,
      GItem.ref false "l1.scad".data "lib/l1.scad" 1,
      GItem.txt ";\n".data,
      GItem.ref false "l2.scad".data "lib/l2.scad" 2,
      GItem.txt ";\n".data,
      GItem.ref false "sub/b.scad".data "sub/b.scad" 3,
      GItem.txt ";\nuser = 1;\n".data]⟩,
   ⟨"/LIB/l1.scad", "/out/lib/l1.scad",
     [GItem.ref true "l2.scad".data "l2.scad" 2,
      GItem.txt ";\ninclude;\n".data]⟩,
   ⟨"/LIB/l2.scad", "/out/lib/l2.scad",
     [GItem.ref false "l1.scad".data "l1.scad" 1,
      GItem.txt ";\n/* include <x> */\n".data]⟩,
   ⟨"/proj/sub/b.scad", "/out/sub/b.scad",
     [GItem.txt "cube(1);\n".data]⟩]

/-! ## Basic lemmas about the filesystem model -/

theorem fsLookup_fsWrite_self (fs : Fs) (p : String) (v : List Char) :
    fsLookup (fsWrite fs p v) p = some v := by
  induction fs with
  | nil => simp [fsWrite, fsLookup]
  | cons hd t ih =>
    by_cases h : hd.1 = p
    · simp [fsWrite, h, fsLookup]
    · simp [fsWrite, h, fsLookup, ih]

theorem fsLookup_fsWrite_ne (fs : Fs) (p : String) (v : List Char) (q : String)
    (h : p ≠ q) : fsLookup (fsWrite fs p v) q = fsLookup fs q := by
  induction fs with
  | nil => simp [fsWrite, fsLookup, h]
  | cons hd t ih =>
    by_cases h2 : hd.1 = p
    · subst h2; simp [fsWrite, fsLookup, h]
    · simp [fsWrite, h2, fsLookup, ih]

theorem fsExists_fsWrite_mono (fs : Fs) (p : String) (v : List Char) (q : String)
    (h : fsExists fs q = true) : fsExists (fsWrite fs p v) q = true := by
  by_cases hpq : p = q
  · subst hpq; simp [fsExists, fsLookup_fsWrite_self]
  · rw [fsExists, fsLookup_fsWrite_ne fs p v q hpq]; exact h

theorem mem_addToSet_self (l : List String) (x : String) : x ∈ addToSet l x := by
  by_cases h : x ∈ l
  · simp [addToSet, h]
  · simp [addToSet, h]

theorem mem_addToSet_of_mem (l : List String) (x y : String) (h : y ∈ l) :
    y ∈ addToSet l x := by
  by_cases hx : x ∈ l
  · simp [addToSet, hx, h]
  · simp [addToSet, hx, h]

/-! ## No-op and preservation lemmas for the coordinator and the import copy -/

/-- `CopyAndParse.run` on an already-existing target returns at once:
the world (filesystem, used-directory set, files read) is unchanged. -/
theorem runCAP_noop (fuel : Nat) (inc : List String) (ctx : Ctx) (w : World)
    (h : fsExists w.fs ctx.target_path = true) : runCAP (fuel + 1) inc ctx w = .ok w := by
  simp [runCAP, h]

/-- Writing a target that does not yet exist leaves every existing
file's content unchanged. -/
theorem write_new_preserve (fs : Fs) (t : String) (u : List Char) (p : String)
    (v : List Char) (hex : fsExists fs t = false) (hp : fsLookup fs p = some v) :
    fsLookup (fsWrite fs t u) p = some v := by
  have hne : t ≠ p := by
    intro h
    subst h
    rw [fsExists, hp] at hex
    simp at hex
  rw [fsLookup_fsWrite_ne fs t u p hne]
  exact hp

/-- The import-copy step never changes the content of any file that
already exists: its only filesystem effect is the guarded copy to a
not-yet-existing target. -/
theorem st_build_import_path_preserve (ctx : Ctx) (fc : List Char) (c : Char)
    (buf : List Char) (w : World) (r : St × List Char × List Char × World)
    (hr : st_build_import_path ctx fc c buf w = .ok r) :
    ∀ p v, fsLookup w.fs p = some v → fsLookup r.2.2.2.fs p = some v := by
  intro p v hp
  unfold st_build_import_path at hr
  split at hr
  · rw [Except.ok.injEq] at hr
    subst hr
    exact hp
  · dsimp only at hr
    split at hr
    · exact absurd hr (by simp)
    · split at hr
      next hex =>
        rw [Except.ok.injEq] at hr
        subst hr
        exact hp
      next hex =>
        rw [Except.ok.injEq] at hr
        subst hr
        exact write_new_preserve _ _ _ _ _ (by simp at hex; simp [hex]) hp

/-! ## Monotonicity of the traversal -/

/-- How one traversal stage may change the world: existing files stay
present, the used-directory set and the read-file record only grow, and
every recorded read is either an old one or has its source directory in
the final used-directory set. -/
def Advances (w w2 : World) : Prop :=
  (∀ p, fsExists w.fs p = true → fsExists w2.fs p = true) ∧
  (∀ d, d ∈ w.used → d ∈ w2.used) ∧
  (∀ p, p ∈ w.readFiles → p ∈ w2.readFiles) ∧
  (∀ p, p ∈ w2.readFiles → p ∈ w.readFiles ∨ os_abspath (os_dirname p) ∈ w2.used)

theorem advances_rfl (w : World) : Advances w w :=
  ⟨fun _ h => h, fun _ h => h, fun _ h => h, fun _ h => Or.inl h⟩

theorem advances_trans {a b c : World} (h1 : Advances a b) (h2 : Advances b c) :
    Advances a c := by
  obtain ⟨f1, u1, r1, q1⟩ := h1
  obtain ⟨f2, u2, r2, q2⟩ := h2
  refine ⟨fun p h => f2 p (f1 p h), fun d h => u2 d (u1 d h), fun p h => r2 p (r1 p h), ?_⟩
  intro p h
  rcases q2 p h with h3 | h3
  · rcases q1 p h3 with h4 | h4
    · exact Or.inl h4
    · exact Or.inr (u2 _ h4)
  · exact Or.inr h3

/-- Changing only the filesystem by one write is an advance. -/
theorem advances_write (w : World) (t : String) (v : List Char) :
    Advances w { w with fs := fsWrite w.fs t v } :=
  ⟨fun _ h => fsExists_fsWrite_mono _ _ _ _ h, fun _ h => h, fun _ h => h, fun _ h => Or.inl h⟩

/-- The import-path step is an advance of the world. -/
theorem st_build_import_path_adv (ctx : Ctx) (fc : List Char) (c : Char)
    (buf : List Char) (w : World) (r : St × List Char × List Char × World)
    (hr : st_build_import_path ctx fc c buf w = .ok r) : Advances w r.2.2.2 := by
  unfold st_build_import_path at hr
  split at hr
  · rw [Except.ok.injEq] at hr
    subst hr
    exact advances_rfl w
  · dsimp only at hr
    split at hr
    · exact absurd hr (by simp)
    · split at hr
      next hex =>
        rw [Except.ok.injEq] at hr
        subst hr
        exact advances_rfl w
      next hex =>
        rw [Except.ok.injEq] at hr
        subst hr
        exact advances_write w _ _

/-- `CopyAndParse.__init__` is an advance of the world, and it records
the directory of the new instance's source path. -/
theorem copyAndParse_init_adv (sp lib rid rod tp : String) (ii : Bool) (w : World) :
    Advances w (copyAndParse_init sp lib rid rod tp ii w).2 ∧
      os_abspath (os_dirname sp) ∈ (copyAndParse_init sp lib rid rod tp ii w).2.used := by
  constructor
  · exact ⟨fun _ h => h, fun d h => mem_addToSet_of_mem _ _ _ h, fun _ h => h,
      fun _ h => Or.inl h⟩
  · exact mem_addToSet_self _ _

/-- The scanning loop advances the world, provided every nested
`run` invocation does so when handed a world that already records its
source directory. -/
theorem runLoopF_adv (nested : Ctx → World → Except Err World)
    (hn : ∀ ctx2 w2 w3, os_abspath (os_dirname ctx2.source_path) ∈ w2.used →
      nested ctx2 w2 = .ok w3 → Advances w2 w3)
    (inc : List String) (ctx : Ctx) :
    ∀ (cs : List Char) (st : St) (fc buf : List Char) (w w2 : World),
      runLoopF nested inc ctx st fc buf cs w = .ok w2 → Advances w w2 := by
  intro cs
  induction cs with
  | nil =>
    intro st fc buf w w2 h
    simp only [runLoopF, Except.ok.injEq] at h
    subst h
    exact advances_write w _ _
  | cons c rest ih =>
    intro st fc buf w w2 h
    cases st <;> simp only [runLoopF] at h
    case lookingForWord => exact ih _ _ _ _ _ h
    case buildingWord => exact ih _ _ _ _ _ h
    case lookingForEol => exact ih _ _ _ _ _ h
    case lookingForEndOfComment => exact ih _ _ _ _ _ h
    case lookingForSemicolon => exact ih _ _ _ _ _ h
    case lookingForImport => exact ih _ _ _ _ _ h
    case lookingForInclude => exact ih _ _ _ _ _ h
    case buildImportPath =>
      split at h
      · exact absurd h (by simp)
      next x heq =>
        exact advances_trans (st_build_import_path_adv _ _ _ _ _ _ heq) (ih _ _ _ _ _ h)
    case buildingIncludePath =>
      split at h
      · split at h
        · exact absurd h (by simp)
        next stn heq =>
          split at h
          · exact absurd h (by simp)
          next w3 heq2 =>
            have hinit := copyAndParse_init_adv stn.1 ctx.lib_dirname ctx.root_input_dir
              ctx.root_output_dir stn.2.1 ctx.ignore_imports w
            have hnst := hn _ _ _ hinit.2 heq2
            exact advances_trans hinit.1 (advances_trans hnst (ih _ _ _ _ _ h))
      · exact ih _ _ _ _ _ h

/-- `CopyAndParse.run` advances the world whenever the caller has
already recorded the source directory (which its own constructor always
does). -/
theorem runCAP_adv : ∀ (fuel : Nat) (inc : List String) (ctx : Ctx) (w w2 : World),
    os_abspath (os_dirname ctx.source_path) ∈ w.used →
    runCAP fuel inc ctx w = .ok w2 → Advances w w2 := by
  intro fuel
  induction fuel with
  | zero => intro inc ctx w w2 _ h; exact absurd h (by simp [runCAP])
  | succ fuel ih =>
    intro inc ctx w w2 hmem h
    rw [runCAP] at h
    split at h
    · rw [Except.ok.injEq] at h
      subst h
      exact advances_rfl w
    · split at h
      · exact absurd h (by simp)
      next file_data heq =>
        have hstep : Advances w
            { fs := fsWrite w.fs ctx.target_path []
              used := w.used
              readFiles := w.readFiles ++ [ctx.source_path] } := by
          refine ⟨fun p hp => fsExists_fsWrite_mono _ _ _ _ hp, fun d hd => hd,
            fun p hp => List.mem_append_left _ hp, ?_⟩
          intro p hp
          rcases List.mem_append.1 hp with hp | hp
          · exact Or.inl hp
          · simp only [List.mem_singleton] at hp
            subst hp
            exact Or.inr hmem
        refine advances_trans hstep ?_
        exact runLoopF_adv (runCAP fuel inc) (fun ctx2 ww2 ww3 hm he => ih inc ctx2 ww2 ww3 hm he)
          inc ctx file_data .lookingForWord [] [] _ w2 h

/-- Existence-only monotonicity of the scanning loop (no side condition
on the used-directory set). -/
theorem runLoopF_fsmono (nested : Ctx → World → Except Err World)
    (hn : ∀ ctx2 w2 w3, nested ctx2 w2 = .ok w3 →
      ∀ p, fsExists w2.fs p = true → fsExists w3.fs p = true)
    (inc : List String) (ctx : Ctx) :
    ∀ (cs : List Char) (st : St) (fc buf : List Char) (w w2 : World),
      runLoopF nested inc ctx st fc buf cs w = .ok w2 →
      ∀ p, fsExists w.fs p = true → fsExists w2.fs p = true := by
  intro cs
  induction cs with
  | nil =>
    intro st fc buf w w2 h p hp
    simp only [runLoopF, Except.ok.injEq] at h
    subst h
    exact fsExists_fsWrite_mono _ _ _ _ hp
  | cons c rest ih =>
    intro st fc buf w w2 h p hp
    cases st <;> simp only [runLoopF] at h
    case lookingForWord => exact ih _ _ _ _ _ h p hp
    case buildingWord => exact ih _ _ _ _ _ h p hp
    case lookingForEol => exact ih _ _ _ _ _ h p hp
    case lookingForEndOfComment => exact ih _ _ _ _ _ h p hp
    case lookingForSemicolon => exact ih _ _ _ _ _ h p hp
    case lookingForImport => exact ih _ _ _ _ _ h p hp
    case lookingForInclude => exact ih _ _ _ _ _ h p hp
    case buildImportPath =>
      split at h
      · exact absurd h (by simp)
      next x heq =>
        exact ih _ _ _ _ _ h p ((st_build_import_path_adv _ _ _ _ _ _ heq).1 p hp)
    case buildingIncludePath =>
      split at h
      · split at h
        · exact absurd h (by simp)
        next stn heq =>
          split at h
          · exact absurd h (by simp)
          next w3 heq2 =>
            exact ih _ _ _ _ _ h p (hn _ _ _ heq2 p hp)
      · exact ih _ _ _ _ _ h p hp

/-- Existence-only monotonicity of `CopyAndParse.run`: a file that
exists when a copy starts still exists when it finishes. -/
theorem runCAP_fsmono : ∀ (fuel : Nat) (inc : List String) (ctx : Ctx) (w w2 : World),
    runCAP fuel inc ctx w = .ok w2 →
    ∀ p, fsExists w.fs p = true → fsExists w2.fs p = true := by
  intro fuel
  induction fuel with
  | zero => intro inc ctx w w2 h; exact absurd h (by simp [runCAP])
  | succ fuel ih =>
    intro inc ctx w w2 h p hp
    rw [runCAP] at h
    split at h
    · rw [Except.ok.injEq] at h
      subst h
      exact hp
    · split at h
      · exact absurd h (by simp)
      next file_data heq =>
        exact runLoopF_fsmono (runCAP fuel inc) (fun ctx2 ww2 ww3 he => ih inc ctx2 ww2 ww3 he)
          inc ctx file_data .lookingForWord [] [] _ w2 h p
          (fsExists_fsWrite_mono _ _ _ _ hp)

/-! ## Claim theorems -/

/-- C1 (counterexample).  The claim states that a second attempt to
produce the same output target path is always a no-op that performs no
I/O and never overwrites — including the License Sweep's copy.  The
sweep, however, deduplicates by *source* path only: two distinct
`README` sources under two library roots map to the same output target
`/o/lib/m/README`; sweeping only the first contributing directory leaves
content `one` there, sweeping both copies again and overwrites it with
`two`. -/
theorem claim_C1_counterexample :
    find_license_files 10 ["/r1", "/r2"] "/p" "/o/lib" ["/r1/m"]
        [("/r1/m/README", "one".data), ("/r2/m/README", "two".data)] =
      .ok [("/r1/m/README", "one".data), ("/r2/m/README", "two".data),
        ("/o/lib/m/README", "one".data)] ∧
    find_license_files 10 ["/r1", "/r2"] "/p" "/o/lib" ["/r1/m", "/r2/m"]
        [("/r1/m/README", "one".data), ("/r2/m/README", "two".data)] =
      .ok [("/r1/m/README", "one".data), ("/r2/m/README", "two".data),
        ("/o/lib/m/README", "two".data)] ∧
    "one".data ≠ "two".data :=
  ⟨rfl, rfl, by decide⟩

/-- C1 (amended).  At most one file is ever written to an output target
by the traversal: a second `run` on an existing target is a no-op
performing no I/O, and the import-copy step never changes the content of
any existing file (its copy is guarded by target existence).  The
License Sweep deduplicates by source path only: re-copying the *same*
source is a no-op, but distinct sources mapping to one target overwrite
(see the counterexample). -/
theorem claim_C1 :
    (∀ (fuel : Nat) (inc : List String) (ctx : Ctx) (w : World),
      fsExists w.fs ctx.target_path = true → runCAP (fuel + 1) inc ctx w = .ok w) ∧
    (∀ (ctx : Ctx) (fc : List Char) (c : Char) (buf : List Char) (w : World)
      (r : St × List Char × List Char × World),
      st_build_import_path ctx fc c buf w = .ok r →
      ∀ p v, fsLookup w.fs p = some v → fsLookup r.2.2.2.fs p = some v) ∧
    (∀ (out : String) (stops : List String) (st : Fs × List String) (p : String),
      p ∈ st.2 → license_copy_file out stops st p = .ok st) := by
  refine ⟨runCAP_noop, st_build_import_path_preserve, ?_⟩
  intro out stops st p hp
  simp [license_copy_file, hp]

theorem claim_C1_witness :
    runCAP 1 [] (Ctx.mk "/s/a.scad" "lib" "" "/o" "/o/a.scad" false)
        (World.mk [("/o/a.scad", [])] [] []) = .ok (World.mk [("/o/a.scad", [])] [] []) ∧
    fsLookup
      ((St.lookingForSemicolon, "q.txt\"".data, "q.txt\"".data,
        World.mk [("/p/q.txt", "D".data), ("/o/q.txt", "D".data)] [] []) :
          St × List Char × List Char × World).2.2.2.fs "/p/q.txt" = some "D".data ∧
    license_copy_file "/o/lib" ["/r"] ([("/r/m/README", [])], ["/r/m/README"]) "/r/m/README" =
      .ok ([("/r/m/README", [])], ["/r/m/README"]) := by
  refine ⟨claim_C1.1 0 [] _ _ (by decide), ?_, claim_C1.2.2 _ _ _ _ (by decide)⟩
  exact claim_C1.2.1 (Ctx.mk "/p/m.scad" "lib" "" "/o" "/o/m.scad" false)
    "q.txt\"".data '"' [] (World.mk [("/p/q.txt", "D".data)] [] []) _ rfl
    "/p/q.txt" "D".data rfl

/-- C3 (code bug).  The spec says a relative import path that does not
exist next to the referencing file is retried relative to the parent
directory of the top-level input file's directory.  The constructor
`CopyAndParse.__init__` receives `root_input_dir` but never assigns
`self.root_input_dir`, so the retry uses the class default `''` and
resolves the path relative to the process working directory instead:
with the input file in `/proj/sub` and the import target at
`/proj/q/m.txt` (exactly where the documented fallback would look), the
run fails with `ImportNotFoundError`.  Assigning the field as the
constructor signature and the class comment document makes the claimed
behavior hold (third conjunct). -/
theorem claim_C3_bug :
    fsExists [("/proj/sub/main.scad", "import(\"q/m.txt\");\n".data),
      ("/proj/q/m.txt", "D".data)] "/proj/q/m.txt" = true ∧
    runCAP 1 [] (Ctx.mk "/proj/sub/main.scad" "lib" "" "/o" "/o/main.scad" false)
        (World.mk [("/proj/sub/main.scad", "import(\"q/m.txt\");\n".data),
          ("/proj/q/m.txt", "D".data)] [] []) =
      .error (.importNotFound "Could not find import path (q/m.txt) in q/m.txt") ∧
    runCAP 1 [] (Ctx.mk "/proj/sub/main.scad" "lib" "/proj/sub" "/o" "/o/main.scad" false)
        (World.mk [("/proj/sub/main.scad", "import(\"q/m.txt\");\n".data),
          ("/proj/q/m.txt", "D".data)] [] []) =
      .ok (World.mk
        [("/proj/sub/main.scad", "import(\"q/m.txt\");\n".data),
         ("/proj/q/m.txt", "D".data),
         ("/o/main.scad", "import(\"q/m.txt\");\n".data),
         ("/o/q/m.txt", "D".data)]
        [] ["/proj/sub/main.scad"]) :=
  ⟨rfl, rfl, rfl⟩

/-- C4 (counterexample).  The claim states that in *BuildingToken*, a
terminator ending a non-keyword token is replayed into *ScanningText*
exactly as it is for the keyword cases.  The code returns
`_looking_for_word` as a value without invoking it on the terminator:
after the word `x` ends with terminator `+`, the code is in the scanning
state with `file_chars` untouched, whereas the spec transition (the
terminator replayed into *ScanningText*, which starts a new token on
non-whitespace) would be in the token-building state with `file_chars`
reset to the terminator. -/
theorem claim_C4_counterexample :
    st_building_word false ['x', '+'] '+' [] = (St.lookingForWord, ['x', '+'], ['+']) ∧
    spec_end_of_token ['x', '+'] '+' [] = (St.buildingWord, ['+'], ['+']) ∧
    St.lookingForWord ≠ St.buildingWord :=
  ⟨rfl, rfl, by decide⟩

/-- C4 (amended).  On a terminator character (not a word character, not
completing a comment opener) ending a token that is not `include`,
`use`, or `import`, the scanner returns to the scanning state *without*
replaying the terminator: the terminator is written to the output
exactly once (never double-counted or dropped from the output), but it
does not seed the next token the way it does in the keyword cases. -/
theorem claim_C4 (ii : Bool) (fc buf : List Char) (c : Char)
    (hw : isWordChar c = false)
    (hsl : ¬(c = '/' ∧ fcPrev fc = some '/'))
    (hst : ¬(c = '*' ∧ fcPrev fc = some '/'))
    (hk1 : String.mk fc.dropLast ≠ "include")
    (hk2 : String.mk fc.dropLast ≠ "use")
    (hk3 : ¬(String.mk fc.dropLast = "import" ∧ ii = false)) :
    st_building_word ii fc c buf = (St.lookingForWord, fc, buf ++ [c]) := by
  unfold st_building_word
  rw [if_neg hsl, if_neg hst, if_neg (by simp [hw]),
    if_neg (by simp [hk1, hk2]), if_neg hk3]

theorem claim_C4_witness :
    st_building_word false ['y', ';'] ';' ['y'] = (St.lookingForWord, ['y', ';'], ['y', ';']) :=
  claim_C4 false ['y', ';'] ['y'] ';' (by decide) (by decide) (by decide) (by decide)
    (by decide) (by decide)

/-- C5 (counterexample).  The claim states that a reference inside a
line comment never triggers resolution or recursive copying.  A `//`
immediately preceded by a word character is not recognized as a comment
opener (the comment test only fires when the `/` begins a token), so in
`x// include <m.scad>;` the include *is* resolved and `m.scad` is
recursively copied into the output tree. -/
theorem claim_C5_counterexample :
    runCAP 3 [] (Ctx.mk "/s/main.scad" "lib" "" "/o" "/o/main.scad" false)
        (World.mk [("/s/main.scad", "x// include <m.scad>;\n".data),
          ("/s/m.scad", "Q".data)] [] []) =
      .ok (World.mk
        [("/s/main.scad", "x// include <m.scad>;\n".data),
         ("/s/m.scad", "Q".data),
         ("/o/main.scad", "x// include <m.scad>;\n".data),
         ("/o/m.scad", "Q".data)]
        ["/s"] ["/s/main.scad", "/s/m.scad"]) :=
  rfl

/-- C7 (counterexample).  The claim states the ContributingDirectorySet
equals the set of directories of files actually read, recorded only when
the scanner is invoked, not when the copy short-circuits.  The directory
is in fact recorded by `__init__`, before `run`'s existence check:
`main.scad` resolves `x.scad` against library root `/L3` after the
target `/o/lib/x.scad` was already produced from `/L2/x.scad`, so the
nested `run` short-circuits and no file under `/L3` is ever read — yet
`/L3` ends up in the set. -/
theorem claim_C7_counterexample :
    runCAP 4 ["/L3", "/L2"] (Ctx.mk "/p/main.scad" "lib" "" "/o" "/o/main.scad" false)
        (World.mk
          [("/p/main.scad", "include <f1.scad>;\ninclude <x.scad>;\n".data),
           ("/L2/f1.scad", "include <x.scad>;\n".data),
           ("/L2/x.scad", []),
           ("/L3/x.scad", [])]
          ["/p"] []) =
      .ok (World.mk
        [("/p/main.scad", "include <f1.scad>;\ninclude <x.scad>;\n".data),
         ("/L2/f1.scad", "include <x.scad>;\n".data),
         ("/L2/x.scad", []),
         ("/L3/x.scad", []),
         ("/o/main.scad", "include <lib/f1.scad>;\ninclude <lib/x.scad>;\n".data),
         ("/o/lib/f1.scad", "include <x.scad>;\n".data),
         ("/o/lib/x.scad", [])]
        ["/p", "/L2", "/L3"] ["/p/main.scad", "/L2/f1.scad", "/L2/x.scad"]) ∧
    "/L3" ∈ ["/p", "/L2", "/L3"] ∧
    "/L3" ∉ (["/p/main.scad", "/L2/f1.scad", "/L2/x.scad"].map
      (fun q => os_abspath (os_dirname q))) :=
  ⟨rfl, by decide, by decide⟩

/-- C7 (amended).  The directory of a source file is recorded at
coordinator-invocation (constructor) time, including when the copy
short-circuits, so after a run the ContributingDirectorySet is a
*superset* of the directories of the files actually read: every file
read during the run either was already recorded as read or has its
directory in the final set. -/
theorem claim_C7 (fuel : Nat) (inc : List String) (ctx : Ctx) (w w2 : World)
    (hmem : os_abspath (os_dirname ctx.source_path) ∈ w.used)
    (h : runCAP fuel inc ctx w = .ok w2) :
    ∀ p, p ∈ w2.readFiles → p ∈ w.readFiles ∨ os_abspath (os_dirname p) ∈ w2.used :=
  (runCAP_adv fuel inc ctx w w2 hmem h).2.2.2

theorem claim_C7_witness :
    "/s/a.scad" ∈ ([] : List String) ∨
      os_abspath (os_dirname "/s/a.scad") ∈
        (World.mk [("/s/a.scad", "Z".data), ("/o/a.scad", "Z".data)] ["/s"]
          ["/s/a.scad"]).used :=
  claim_C7 1 [] (Ctx.mk "/s/a.scad" "lib" "" "/o" "/o/a.scad" false)
    (World.mk [("/s/a.scad", "Z".data)] ["/s"] [])
    (World.mk [("/s/a.scad", "Z".data), ("/o/a.scad", "Z".data)] ["/s"] ["/s/a.scad"])
    (by decide) rfl "/s/a.scad" (by decide)

/-- C10.  While a source file is being scanned, its own output target
already exists: `run` creates the (empty) target with the
open-for-writing call before the first input character is processed,
file existence is preserved by every scanning step, and a nested copy
request for an existing target returns its world unchanged — no file is
read and nothing is written. -/
theorem claim_C10 :
    (∀ (fuel : Nat) (inc : List String) (ctx : Ctx) (w : World) (file_data : List Char),
      fsExists w.fs ctx.target_path = false →
      fsLookup w.fs ctx.source_path = some file_data →
      runCAP (fuel + 1) inc ctx w =
        runLoopF (runCAP fuel inc) inc ctx .lookingForWord [] [] file_data
          (World.mk (fsWrite w.fs ctx.target_path []) w.used
            (w.readFiles ++ [ctx.source_path])) ∧
      fsExists (fsWrite w.fs ctx.target_path []) ctx.target_path = true) ∧
    (∀ (fuel : Nat) (inc : List String) (ctx : Ctx) (w w2 : World),
      runCAP fuel inc ctx w = .ok w2 →
      ∀ p, fsExists w.fs p = true → fsExists w2.fs p = true) ∧
    (∀ (fuel : Nat) (inc : List String) (ctx : Ctx) (w : World),
      fsExists w.fs ctx.target_path = true → runCAP (fuel + 1) inc ctx w = .ok w) := by
  refine ⟨?_, runCAP_fsmono, runCAP_noop⟩
  intro fuel inc ctx w file_data hex hsrc
  constructor
  · rw [runCAP, if_neg (by simp [hex]), hsrc]
  · simp [fsExists, fsLookup_fsWrite_self]

theorem claim_C10_witness :
    (runCAP 1 [] (Ctx.mk "/s/a.scad" "lib" "" "/o" "/o/a.scad" false)
        (World.mk [("/s/a.scad", "Z".data)] [] []) =
      runLoopF (runCAP 0 []) [] (Ctx.mk "/s/a.scad" "lib" "" "/o" "/o/a.scad" false)
        .lookingForWord [] [] "Z".data
        (World.mk (fsWrite [("/s/a.scad", "Z".data)] "/o/a.scad" []) [] ["/s/a.scad"]) ∧
      fsExists (fsWrite [("/s/a.scad", "Z".data)] "/o/a.scad" []) "/o/a.scad" = true) ∧
    (fsExists (World.mk [("/s/a.scad", "Z".data), ("/o/a.scad", "Z".data)] [] ["/s/a.scad"]).fs
        "/s/a.scad" = true) := by
  constructor
  · exact claim_C10.1 0 [] (Ctx.mk "/s/a.scad" "lib" "" "/o" "/o/a.scad" false)
      (World.mk [("/s/a.scad", "Z".data)] [] []) "Z".data (by decide) rfl
  · exact claim_C10.2.1 1 [] (Ctx.mk "/s/a.scad" "lib" "" "/o" "/o/a.scad" false)
      (World.mk [("/s/a.scad", "Z".data)] [] [])
      (World.mk [("/s/a.scad", "Z".data), ("/o/a.scad", "Z".data)] [] ["/s/a.scad"])
      rfl "/s/a.scad" (by decide)

/-! ## Byte fidelity on reference-free files -/

theorem fsWrite_fsWrite (fs : Fs) (p : String) (u v : List Char) :
    fsWrite (fsWrite fs p u) p v = fsWrite fs p v := by
  induction fs with
  | nil => simp [fsWrite]
  | cons hd t ih =>
    by_cases h : hd.1 = p
    · simp [fsWrite, h]
    · simp [fsWrite, h, ih]

/-! ## Comment scanning -/

theorem scan_eol_chunk (nested : Ctx → World → Except Err World) (inc : List String)
    (ctx : Ctx) (t : List Char) (h : '\n' ∉ t) :
    ∀ (fc buf rest : List Char) (w : World),
      runLoopF nested inc ctx .lookingForEol fc buf (t ++ rest) w =
      runLoopF nested inc ctx .lookingForEol (fc ++ t) (buf ++ t) rest w := by
  induction t with
  | nil => intro fc buf rest w; simp
  | cons c t2 ih =>
    intro fc buf rest w
    have hc : c ≠ '\n' := by rintro rfl; exact h (List.mem_cons_self _ _)
    have ht : '\n' ∉ t2 := fun hm => h (List.mem_cons_of_mem _ hm)
    simp only [List.cons_append, runLoopF, st_looking_for_eol, if_pos hc, if_true,
      List.append_eq]
    rw [ih ht]
    simp [List.append_assoc]

theorem hasCloseAdj_head (a b : Char) (t : List Char)
    (h : hasCloseAdj (a :: b :: t) = false) : ¬(a = '*' ∧ b = '/') := by
  intro hab
  rw [hasCloseAdj, if_pos hab] at h
  exact Bool.true_eq_false ▸ h

theorem hasCloseAdj_drop (a : Char) (r : List Char)
    (h : hasCloseAdj (a :: r) = false) : hasCloseAdj r = false := by
  cases r with
  | nil => rfl
  | cons b r2 =>
    by_cases hab : a = '*' ∧ b = '/'
    · rw [hasCloseAdj, if_pos hab] at h
      exact absurd h (by simp)
    · rw [hasCloseAdj, if_neg hab] at h
      exact h

theorem scan_eoc_chunk (nested : Ctx → World → Except Err World) (inc : List String)
    (ctx : Ctx) :
    ∀ (t fc buf rest : List Char) (w : World),
      hasCloseAdj (fc.getLast?.toList ++ t) = false →
      runLoopF nested inc ctx .lookingForEndOfComment fc buf (t ++ rest) w =
      runLoopF nested inc ctx .lookingForEndOfComment (fc ++ t) (buf ++ t) rest w := by
  intro t
  induction t with
  | nil => intro fc buf rest w _; simp
  | cons c t2 ih =>
    intro fc buf rest w h
    have hnc : ¬(c = '/' ∧ fcPrev (fc ++ [c]) = some '*') := by
      rw [fcPrev, List.dropLast_concat]
      cases hl : fc.getLast? with
      | none => rintro ⟨_, h2⟩; exact Option.noConfusion h2
      | some lc =>
        rw [hl] at h
        simp only [Option.toList_some, List.cons_append, List.singleton_append] at h
        rintro ⟨h1, h2⟩
        have hlc : lc = '*' := by injection h2
        exact hasCloseAdj_head lc c t2 h ⟨hlc, h1⟩
    have ht2 : hasCloseAdj ((fc ++ [c]).getLast?.toList ++ t2) = false := by
      rw [List.getLast?_concat]
      simp only [Option.toList_some, List.singleton_append]
      cases hl : fc.getLast? with
      | none =>
        rw [hl] at h
        simpa using h
      | some lc =>
        rw [hl] at h
        simp only [Option.toList_some, List.singleton_append] at h
        exact hasCloseAdj_drop lc (c :: t2) h
    simp only [List.cons_append, runLoopF, st_looking_for_end_of_comment, if_neg hnc,
      List.append_eq]
    rw [ih (fc ++ [c]) (buf ++ [c]) rest w ht2]
    simp [List.append_assoc]

/-- A recognized line comment is copied verbatim with no world change. -/
theorem scan_line_comment (nested : Ctx → World → Except Err World) (inc : List String)
    (ctx : Ctx) (t fc buf rest : List Char) (w : World) (h : '\n' ∉ t) :
    runLoopF nested inc ctx .lookingForWord fc buf (('/' :: '/' :: t) ++ '\n' :: rest) w =
      runLoopF nested inc ctx .lookingForWord (('/' :: '/' :: t) ++ ['\n'])
        (buf ++ (('/' :: '/' :: t) ++ ['\n'])) rest w := by
  have step2 : runLoopF nested inc ctx .lookingForWord fc buf ('/' :: '/' :: (t ++ '\n' :: rest)) w =
      runLoopF nested inc ctx .lookingForEol ['/', '/'] ((buf ++ ['/']) ++ ['/'])
        (t ++ '\n' :: rest) w := by
    simp [runLoopF, st_looking_for_word, st_building_word, fcPrev]
  rw [List.cons_append, List.cons_append, step2, scan_eol_chunk nested inc ctx t h]
  simp [runLoopF, st_looking_for_eol, List.append_assoc]

/-- A recognized block comment is copied verbatim with no world change. -/
theorem scan_block_comment (nested : Ctx → World → Except Err World) (inc : List String)
    (ctx : Ctx) (t fc buf rest : List Char) (w : World) (h : hasCloseAdj ('*' :: t) = false) :
    runLoopF nested inc ctx .lookingForWord fc buf
        (('/' :: '*' :: t) ++ '*' :: '/' :: rest) w =
      runLoopF nested inc ctx .lookingForWord (('/' :: '*' :: t) ++ ['*', '/'])
        (buf ++ (('/' :: '*' :: t) ++ ['*', '/'])) rest w := by
  have step2 : runLoopF nested inc ctx .lookingForWord fc buf ('/' :: '*' :: (t ++ '*' :: '/' :: rest)) w =
      runLoopF nested inc ctx .lookingForEndOfComment ['/', '*'] ((buf ++ ['/']) ++ ['*'])
        (t ++ '*' :: '/' :: rest) w := by
    simp [runLoopF, st_looking_for_word, st_building_word, fcPrev]
  rw [List.cons_append, List.cons_append, step2,
    scan_eoc_chunk nested inc ctx t ['/', '*'] ((buf ++ ['/']) ++ ['*']) ('*' :: '/' :: rest) w
      (by simpa using h)]
  have hstar : ('/' :: ('*' :: (t ++ ['*', '/'])).dropLast).getLast? = some '*' := by
    have h1 : '*' :: (t ++ ['*', '/']) = ('*' :: t ++ ['*']) ++ ['/'] := by simp
    rw [h1, List.dropLast_concat]
    have h2 : '/' :: ('*' :: t ++ ['*']) = ('/' :: '*' :: t) ++ ['*'] := by simp
    rw [h2, List.getLast?_concat]
  simp [runLoopF, st_looking_for_end_of_comment, fcPrev, hstar, List.append_assoc]

/-- C5 (amended).  When the comment opener is itself recognized — its
first `/` begins a token, e.g. follows whitespace or another terminator
— a reference-looking token inside the comment never triggers path
resolution, literal rewriting, or recursive copying: the whole comment
is copied verbatim into the output and the world (filesystem, used
directories, files read) is untouched, the scanner ending back in the
scanning state.  First conjunct: a line comment up to its newline;
second: a block comment up to its closing `*/` (with no earlier `*/`
pair formed inside).  A `//` or `/*` immediately preceded by a word
character is *not* recognized as a comment and a reference inside it is
processed (see the counterexample). -/
theorem claim_C5 :
    (∀ (nested : Ctx → World → Except Err World) (inc : List String) (ctx : Ctx)
      (t fc buf rest : List Char) (w : World), '\n' ∉ t →
      runLoopF nested inc ctx .lookingForWord fc buf (('/' :: '/' :: t) ++ '\n' :: rest) w =
        runLoopF nested inc ctx .lookingForWord (('/' :: '/' :: t) ++ ['\n'])
          (buf ++ (('/' :: '/' :: t) ++ ['\n'])) rest w) ∧
    (∀ (nested : Ctx → World → Except Err World) (inc : List String) (ctx : Ctx)
      (t fc buf rest : List Char) (w : World), hasCloseAdj ('*' :: t) = false →
      runLoopF nested inc ctx .lookingForWord fc buf
          (('/' :: '*' :: t) ++ '*' :: '/' :: rest) w =
        runLoopF nested inc ctx .lookingForWord (('/' :: '*' :: t) ++ ['*', '/'])
          (buf ++ (('/' :: '*' :: t) ++ ['*', '/'])) rest w) :=
  ⟨scan_line_comment, scan_block_comment⟩

theorem claim_C5_witness :
    runLoopF (runCAP 0 []) [] (Ctx.mk "/s/a.scad" "lib" "" "/o" "/o/a.scad" false)
        .lookingForWord [] [] (('/' :: '/' :: " include <x.scad>;".data) ++ '\n' :: [])
        (World.mk [] [] []) =
      runLoopF (runCAP 0 []) [] (Ctx.mk "/s/a.scad" "lib" "" "/o" "/o/a.scad" false)
        .lookingForWord (('/' :: '/' :: " include <x.scad>;".data) ++ ['\n'])
        ([] ++ (('/' :: '/' :: " include <x.scad>;".data) ++ ['\n'])) []
        (World.mk [] [] []) :=
  claim_C5.1 (runCAP 0 []) [] (Ctx.mk "/s/a.scad" "lib" "" "/o" "/o/a.scad" false)
    " include <x.scad>;".data [] [] [] (World.mk [] [] []) (by decide)

/-- C6 (counterexample).  The claim states the `IncludeNotFound` error
names every location that was searched: the referencing file's *source*
directory and each library root.  The raised message interpolates the
*output* directory (`dirname(self.target_path)`) instead of the source
directory that was actually searched: for a source in `/srcdir` and a
target under `/outdir`, the message mentions `/outdir` and never
mentions `/srcdir`. -/
theorem claim_C6_counterexample :
    runCAP 1 ["/libdir"] (Ctx.mk "/srcdir/main.scad" "lib" "" "/outdir" "/outdir/main.scad" false)
        (World.mk [("/srcdir/main.scad", "include <zzz.scad>;\n".data)] [] []) =
      .error (.includeNotFound "Could not find zzz.scad in /outdir or ['/libdir']") ∧
    containsSub "/srcdir".data "Could not find zzz.scad in /outdir or ['/libdir']".data
      = false ∧
    containsSub "/outdir".data "Could not find zzz.scad in /outdir or ['/libdir']".data
      = true :=
  ⟨rfl, by decide, by decide⟩

/-- C6 (amended).  When an include path exists neither relative to the
source directory nor under any configured library root, resolution
fails with `IncludeNotFound`, and the message names the include path,
the referencing file's *output* directory (not the source directory
that was searched), and the library-root list. -/
theorem claim_C6 (inc : List String) (ctx : Ctx) (fs : Fs) (p : String)
    (h1 : fsExists fs (os_join (os_dirname ctx.source_path) p) = false)
    (h2 : ∀ r ∈ inc, fsExists fs (os_join r p) = false) :
    find_included_file inc ctx fs p =
      .error (.includeNotFound ("Could not find " ++ p ++ " in "
        ++ os_dirname ctx.target_path ++ " or " ++ pyReprStrList inc)) := by
  unfold find_included_file
  rw [if_neg (by simp [h1])]
  have hnone : inc.find? (fun pre => fsExists fs (os_join pre p)) = none := by
    rw [List.find?_eq_none]
    intro x hx
    simp [h2 x hx]
  rw [hnone]

theorem claim_C6_witness :
    find_included_file ["/libdir"]
        (Ctx.mk "/srcdir/main.scad" "lib" "" "/outdir" "/outdir/main.scad" false)
        [("/srcdir/main.scad", [])] "zzz.scad" =
      .error (.includeNotFound ("Could not find " ++ "zzz.scad" ++ " in "
        ++ os_dirname "/outdir/main.scad" ++ " or " ++ pyReprStrList ["/libdir"])) :=
  claim_C6 ["/libdir"] (Ctx.mk "/srcdir/main.scad" "lib" "" "/outdir" "/outdir/main.scad" false)
    [("/srcdir/main.scad", [])] "zzz.scad" (by decide) (by decide)

/-! ## License-sweep walk -/

theorem firstIdxSlash_no (y z : List Char) (hy : '/' ∉ y) :
    firstIdxSlash (y ++ '/' :: z) = some y.length := by
  induction y with
  | nil => simp [firstIdxSlash]
  | cons c t ih =>
    have hc : c ≠ '/' := by rintro rfl; exact hy (List.mem_cons_self _ _)
    have ht : '/' ∉ t := fun hm => hy (List.mem_cons_of_mem _ hm)
    simp [firstIdxSlash, hc, ih ht]

/-- Splitting off the last path component with `os.path.dirname`. -/
theorem os_dirname_concat (d : String) (x : List Char) (hx : '/' ∉ x)
    (hd1 : d.data ≠ []) (hd2 : d.data.getLast? ≠ some '/') :
    os_dirname (String.mk (d.data ++ '/' :: x)) = d := by
  obtain ⟨c, hc⟩ : ∃ c, d.data.getLast? = some c := by
    cases hl : d.data.getLast? with
    | none => exact absurd (List.getLast?_eq_none_iff.1 hl) hd1
    | some c => exact ⟨c, rfl⟩
  have hcne : c ≠ '/' := by rintro rfl; exact hd2 hc
  have hfind : firstIdxSlash (d.data ++ '/' :: x).reverse = some x.length := by
    have hrev : (d.data ++ '/' :: x).reverse = x.reverse ++ '/' :: d.data.reverse := by
      simp
    rw [hrev]
    have hnx : '/' ∉ x.reverse := by simpa using hx
    simpa using firstIdxSlash_no x.reverse d.data.reverse hnx
  have hlen : (d.data ++ '/' :: x).length - 1 - x.length = d.data.length := by
    simp
  have htake : (d.data ++ '/' :: x).take (d.data.length + 1) = d.data ++ ['/'] := by
    have h0 : (d.data ++ '/' :: x).take (d.data.length + 1) =
        d.data ++ ('/' :: x).take 1 := List.take_append 1
    simpa using h0
  have hmem : c ∈ d.data ++ ['/'] := List.mem_append_left _ (List.mem_of_mem_getLast? hc)
  have hall : (d.data ++ ['/']).all (fun ch => ch = '/') = false := by
    by_contra hcon
    rw [Bool.not_eq_false] at hcon
    exact hcne (by simpa using List.all_eq_true.1 hcon c hmem)
  have hstrip : rstripSlash (d.data ++ ['/']) = d.data := by
    unfold rstripSlash
    have h1 : (d.data ++ ['/']).reverse = '/' :: d.data.reverse := by simp
    rw [h1]
    have h2 : d.data.reverse.head? = some c := by rw [List.head?_reverse]; exact hc
    cases hr : d.data.reverse with
    | nil => rw [hr] at h2; exact absurd h2 (by simp)
    | cons rc rt =>
      rw [hr] at h2
      have hrc : rc = c := by injection h2
      subst hrc
      rw [List.dropWhile_cons, if_pos (by simp), List.dropWhile_cons,
        if_neg (by simpa using hcne), ← hr]
      simp
  unfold os_dirname rfindSlash
  rw [show (String.mk (d.data ++ '/' :: x)).data = d.data ++ '/' :: x from rfl, hfind]
  rw [Option.map_some', hlen]
  dsimp only
  rw [htake, if_neg (by simp [hall]), hstrip]

/-- The raw character list of `mkPath`. -/
theorem mkPath_data : ∀ (comps : List (List Char)) (b : String),
    (mkPath b comps).data = b.data ++ (comps.map (fun x => '/' :: x)).flatten := by
  intro comps
  induction comps with
  | nil => intro b; simp [mkPath]
  | cons c t ih =>
    intro b
    show (mkPath (String.mk (b.data ++ '/' :: c)) t).data = _
    rw [ih (String.mk (b.data ++ '/' :: c))]
    simp

theorem mkPath_concat (b : String) (comps : List (List Char)) (x : List Char) :
    mkPath b (comps ++ [x]) = String.mk ((mkPath b comps).data ++ '/' :: x) := by
  unfold mkPath
  rw [List.foldl_append]
  rfl

/-- Well-formedness (nonempty, not slash-terminated) is preserved by
appending components. -/
theorem mkPath_wf (b : String) (hb1 : b.data ≠ []) (hb2 : b.data.getLast? ≠ some '/') :
    ∀ (comps : List (List Char)), (∀ x ∈ comps, x ≠ [] ∧ '/' ∉ x) →
    (mkPath b comps).data ≠ [] ∧ (mkPath b comps).data.getLast? ≠ some '/' := by
  intro comps
  induction comps using List.reverseRecOn with
  | nil => intro _; exact ⟨hb1, hb2⟩
  | append_singleton cs x _ =>
    intro hwf
    obtain ⟨hx1, hx2⟩ := hwf x (by simp)
    rw [mkPath_concat]
    constructor
    · simp
    · show ((mkPath b cs).data ++ '/' :: x).getLast? ≠ some '/'
      rw [List.getLast?_append]
      obtain ⟨c, hxl⟩ : ∃ c, x.getLast? = some c := by
        cases hl : x.getLast? with
        | none => exact absurd (List.getLast?_eq_none_iff.1 hl) hx1
        | some c => exact ⟨c, rfl⟩
      have hcx : c ∈ x := List.mem_of_mem_getLast? hxl
      have hxc : ('/' :: x).getLast? = some c := by
        rw [show ('/' :: x) = ['/'] ++ x from rfl, List.getLast?_append, hxl]
        rfl
      rw [hxc]
      intro hcon
      have : c = '/' := by injection hcon
      exact hx2 (this ▸ hcx)

theorem pyStartswith_mk_append (d b : String) (l : List Char)
    (h : pyStartswith d b = true) : pyStartswith (String.mk (d.data ++ l)) b = true := by
  unfold pyStartswith at h ⊢
  rw [List.isPrefixOf_iff_prefix] at h ⊢
  exact h.trans (List.prefix_append _ _)

theorem pyStartswith_self (b : String) : pyStartswith b b = true := by
  unfold pyStartswith
  rw [List.isPrefixOf_iff_prefix]

theorem mkPath_startswith (b : String) (comps : List (List Char)) :
    pyStartswith (mkPath b comps) b = true := by
  unfold pyStartswith
  rw [List.isPrefixOf_iff_prefix, mkPath_data]
  exact List.prefix_append _ _

theorem mkPath_underOrEq (b : String) (comps : List (List Char)) :
    isUnderOrEq b (mkPath b comps) = true := by
  cases comps with
  | nil => simp [mkPath, isUnderOrEq]
  | cons c t =>
    unfold isUnderOrEq
    rw [Bool.or_eq_true]
    refine Or.inr ?_
    unfold pyStartswith
    rw [List.isPrefixOf_iff_prefix]
    rw [show (String.mk (b.data ++ ['/'])).data = b.data ++ ['/'] from rfl, mkPath_data]
    simp only [List.map_cons, List.flatten_cons]
    rw [show b.data ++ (('/' :: c) ++ (t.map (fun x => '/' :: x)).flatten) =
      (b.data ++ ['/']) ++ (c ++ (t.map (fun x => '/' :: x)).flatten) by simp]
    exact List.prefix_append _ _

/-- `copy_file` succeeds whenever some stop path is a string prefix of
the copied path. -/
theorem license_copy_file_ok (out : String) (stops : List String) (b : String)
    (hb : b ∈ stops) (path : String) (hpre : pyStartswith path b = true)
    (st : Fs × List String) : ∃ st2, license_copy_file out stops st path = .ok st2 := by
  unfold license_copy_file
  split
  · exact ⟨st, rfl⟩
  · have hsome : (stops.find? (fun p => pyStartswith path p)).isSome := by
      rw [List.find?_isSome]
      exact ⟨b, hb, hpre⟩
    cases hfind : stops.find? (fun p => pyStartswith path p) with
    | none => rw [hfind] at hsome; exact absurd hsome (by simp)
    | some q => exact ⟨_, rfl⟩

theorem foldCopy_ok (out : String) (stops : List String) (b : String) (hb : b ∈ stops) :
    ∀ (paths : List String) (st : Fs × List String),
      (∀ p ∈ paths, pyStartswith p b = true) →
      ∃ st2, foldCopy out stops paths st = .ok st2 := by
  intro paths
  induction paths with
  | nil => intro st _; exact ⟨st, rfl⟩
  | cons p t ih =>
    intro st hall
    obtain ⟨st1, h1⟩ := license_copy_file_ok out stops b hb p (hall p (by simp)) st
    obtain ⟨st2, h2⟩ := ih st1 (fun q hq => hall q (List.mem_cons_of_mem _ hq))
    refine ⟨st2, ?_⟩
    rw [foldCopy, h1]
    exact h2

/-- Joining a relative name onto a prefixed directory keeps the prefix. -/
theorem os_join_startswith (d name b : String) (hn : pyStartswith name "/" = false)
    (hb1 : b.data ≠ []) (hd : pyStartswith d b = true) :
    pyStartswith (os_join d name) b = true := by
  have hdne : d ≠ "" := by
    intro h
    subst h
    unfold pyStartswith at hd
    rw [List.isPrefixOf_iff_prefix] at hd
    exact hb1 (List.prefix_nil.1 hd)
  unfold os_join
  rw [if_neg (by simp [hn]), if_neg hdne]
  split
  · exact pyStartswith_mk_append d b _ hd
  · exact pyStartswith_mk_append d b _ hd

/-- Every glob result under a prefixed directory keeps the prefix. -/
theorem globDir_startswith (fs : Fs) (dir : String) (ext : List Char) (b : String)
    (hd : pyStartswith dir b = true) :
    ∀ p ∈ globDir fs dir ext, pyStartswith p b = true := by
  intro p hp
  obtain ⟨-, hmatch⟩ := List.mem_filter.1 hp
  unfold globMatch at hmatch
  rw [Bool.and_eq_true] at hmatch
  obtain ⟨hpre, -⟩ := hmatch
  unfold pyStartswith at hd ⊢
  rw [List.isPrefixOf_iff_prefix] at hd hpre ⊢
  split at hpre
  · exact hd.trans hpre
  · refine hd.trans (List.IsPrefix.trans ?_ hpre)
    exact ⟨['/'], rfl⟩

/-- `find_files` succeeds on any directory that has stop path `b` as a
string prefix (every candidate file path keeps that prefix, so the
`next(...)` in `copy_file` always finds a match). -/
theorem license_find_files_ok (out : String) (stops : List String) (b : String)
    (hb : b ∈ stops) (hb1 : b.data ≠ []) (dir : String) (hd : pyStartswith dir b = true)
    (st : Fs × List String) : ∃ st2, license_find_files out stops dir st = .ok st2 := by
  unfold license_find_files
  have step1 : ∃ st1, (if fsExists st.1 (os_join dir "COPYING")
      then license_copy_file out stops st (os_join dir "COPYING")
      else Except.ok st) = Except.ok st1 := by
    split
    · exact license_copy_file_ok out stops b hb _
        (os_join_startswith dir "COPYING" b (by decide) hb1 hd) st
    · exact ⟨st, rfl⟩
  obtain ⟨st1, h1⟩ := step1
  rw [h1]
  dsimp only
  have step2 : ∃ st2, (if fsExists st1.1 (os_join dir "README")
      then license_copy_file out stops st1 (os_join dir "README")
      else Except.ok st1) = Except.ok st2 := by
    split
    · exact license_copy_file_ok out stops b hb _
        (os_join_startswith dir "README" b (by decide) hb1 hd) st1
    · exact ⟨st1, rfl⟩
  obtain ⟨st2, h2⟩ := step2
  rw [h2]
  dsimp only
  obtain ⟨st3, h3⟩ := foldCopy_ok out stops b hb (globDir st2.1 dir ('.' :: 'm' :: 'd' :: []))
    st2 (globDir_startswith st2.1 dir _ b hd)
  rw [h3]
  dsimp only
  obtain ⟨st4, h4⟩ := foldCopy_ok out stops b hb (globDir st3.1 dir ('.' :: 'M' :: 'D' :: []))
    st3 (globDir_startswith st3.1 dir _ b hd)
  rw [h4]
  dsimp only
  obtain ⟨st5, h5⟩ := foldCopy_ok out stops b hb
    (globDir st4.1 dir ('.' :: 't' :: 'x' :: 't' :: [])) st4 (globDir_startswith st4.1 dir _ b hd)
  rw [h5]
  dsimp only
  exact foldCopy_ok out stops b hb (globDir st5.1 dir ('.' :: 'T' :: 'X' :: 'T' :: [])) st5
    (globDir_startswith st5.1 dir _ b hd)

/-- The upward walk from a directory componentwise below a stop path
terminates at the first stop level: it visits a chain starting at the
directory, ending at a stop path, with every visited level at or below
the boundary `b`. -/
theorem license_walk_ok (out : String) (stops : List String) (b : String)
    (hb : b ∈ stops) (hb1 : b.data ≠ []) (hb2 : b.data.getLast? ≠ some '/') :
    ∀ (comps : List (List Char)), (∀ x ∈ comps, x ≠ [] ∧ '/' ∉ x) →
    ∀ (st : Fs × List String),
    ∃ st2 vs, license_walk (comps.length + 1) out stops (mkPath b comps) st = .ok (st2, vs) ∧
      vs.head? = some (mkPath b comps) ∧
      (∃ lastd, vs.getLast? = some lastd ∧ lastd ∈ stops) ∧
      (∀ v ∈ vs, isUnderOrEq b v = true) := by
  intro comps
  induction comps using List.reverseRecOn with
  | nil =>
    intro _ st
    obtain ⟨st1, h1⟩ := license_find_files_ok out stops b hb hb1 b (pyStartswith_self b) st
    refine ⟨st1, [b], ?_, rfl, ⟨b, rfl, hb⟩, ?_⟩
    · show license_walk (0 + 1) out stops b st = _
      rw [license_walk, h1]
      dsimp only
      rw [if_pos hb]
    · intro v hv
      have : v = b := by simpa using hv
      subst this
      simp [isUnderOrEq]
  | append_singleton cs x ih =>
    intro hwf st
    obtain ⟨hx1, hx2⟩ := hwf x (by simp)
    have hwf2 : ∀ y ∈ cs, y ≠ [] ∧ '/' ∉ y := fun y hy => hwf y (by simp [hy])
    have hpre : pyStartswith (mkPath b (cs ++ [x])) b = true := mkPath_startswith b _
    obtain ⟨st1, h1⟩ := license_find_files_ok out stops b hb hb1 (mkPath b (cs ++ [x]))
      hpre st
    by_cases hmem : mkPath b (cs ++ [x]) ∈ stops
    · refine ⟨st1, [mkPath b (cs ++ [x])], ?_, rfl, ⟨_, rfl, hmem⟩, ?_⟩
      · rw [license_walk, h1]
        dsimp only
        rw [if_pos hmem]
      · intro v hv
        have : v = mkPath b (cs ++ [x]) := by simpa using hv
        subst this
        exact mkPath_underOrEq b (cs ++ [x])
    · obtain ⟨wf1, wf2⟩ := mkPath_wf b hb1 hb2 cs hwf2
      have hdir : os_dirname (mkPath b (cs ++ [x])) = mkPath b cs := by
        rw [mkPath_concat]
        exact os_dirname_concat (mkPath b cs) x hx2 wf1 wf2
      obtain ⟨st2, vs, hwalk, hhead, hlast, hunder⟩ := ih hwf2 st1
      refine ⟨st2, mkPath b (cs ++ [x]) :: vs, ?_, rfl, ?_, ?_⟩
      · rw [license_walk, h1]
        dsimp only
        rw [if_neg hmem, hdir]
        have hl : (cs ++ [x]).length = cs.length + 1 := by simp
        rw [hl, hwalk]
      · obtain ⟨lastd, hl1, hl2⟩ := hlast
        cases vs with
        | nil => exact absurd hhead (by simp)
        | cons a t =>
          refine ⟨lastd, ?_, hl2⟩
          rw [List.getLast?_cons_cons]
          exact hl1
      · intro v hv
        rcases List.mem_cons.1 hv with hv | hv
        · subst hv
          exact mkPath_underOrEq b (cs ++ [x])
        · exact hunder v hv

/-- C8 (counterexample).  The claim states that for every contributing
directory with a boundary directory as a prefix, the walk visits only
levels up to the boundary, stops there, and never processes a directory
above it.  The guard `contains_a_stop_path` is a *string* prefix test:
`/r1x/s` passes it with boundary `/r1`, but no level of its `dirname`
chain ever equals `/r1` (the chain is `/r1x/s`, `/r1x`, `/`, `/`, …), so
the walk ascends past the boundary to the filesystem root and never
terminates; at the root it processes `/` (not under `/r1`), and a
`README` there makes the `next(...)` in `copy_file` raise
`StopIteration` because no stop path prefixes `/README`. -/
theorem claim_C8_counterexample :
    contains_a_stop_path ["/r1"] "/r1x/s" = true ∧
    license_walk 50 "/o/lib" ["/r1"] "/r1x/s" ([], []) = .error .outOfFuel ∧
    license_walk 6 "/o/lib" ["/r1"] "/r1x/s" ([("/README", "r".data)], []) =
      .error .stopIteration ∧
    os_dirname "/r1x" = "/" ∧
    isUnderOrEq "/r1" "/" = false :=
  ⟨rfl, rfl, rfl, rfl, by decide⟩

/-- C8 (amended).  For every contributing directory that lies
*componentwise* at or below a boundary directory `b` (not merely with
`b` as a string prefix), the walk terminates within one step per path
component: it visits a chain of levels beginning at the directory,
every visited level is at or below `b`, and the last processed level is
a stop path (the matched boundary, or a nearer one); nothing above the
boundary is processed.  A directory that only string-prefix-matches a
boundary is walked too, but ascends past the boundary and never
terminates (see the counterexample). -/
theorem claim_C8 (out b : String) (stops : List String) (comps : List (List Char))
    (st : Fs × List String) (hb : b ∈ stops) (hb1 : b.data ≠ [])
    (hb2 : b.data.getLast? ≠ some '/') (hwf : ∀ x ∈ comps, x ≠ [] ∧ '/' ∉ x) :
    ∃ st2 vs, license_walk (comps.length + 1) out stops (mkPath b comps) st = .ok (st2, vs) ∧
      vs.head? = some (mkPath b comps) ∧
      (∃ lastd, vs.getLast? = some lastd ∧ lastd ∈ stops) ∧
      (∀ v ∈ vs, isUnderOrEq b v = true) :=
  license_walk_ok out stops b hb hb1 hb2 comps hwf st

theorem claim_C8_witness :
    ∃ st2 vs, license_walk (([['m'], ['n']] : List (List Char)).length + 1) "/o/lib" ["/r"]
        (mkPath "/r" [['m'], ['n']]) ([("/r/m/README", [])], []) = .ok (st2, vs) ∧
      vs.head? = some (mkPath "/r" [['m'], ['n']]) ∧
      (∃ lastd, vs.getLast? = some lastd ∧ lastd ∈ ["/r"]) ∧
      (∀ v ∈ vs, isUnderOrEq "/r" v = true) :=
  claim_C8 "/o/lib" "/r" ["/r"] [['m'], ['n']] ([("/r/m/README", [])], [])
    (by decide) (by decide) (by decide) (by decide)


/-! ## Evaluating the scanner on an include statement -/

/-- Scanning the nine characters of `include <` from the scanning state
recognizes the keyword and enters include-path building. -/
theorem scan_include_open (nested : Ctx → World → Except Err World) (inc : List String)
    (ctx : Ctx) (fc buf rest : List Char) (w : World) :
    runLoopF nested inc ctx .lookingForWord fc buf ("include <".data ++ rest) w =
    runLoopF nested inc ctx .buildingIncludePath [] (buf ++ "include <".data) rest w := by
  simp [runLoopF, st_looking_for_word, st_building_word, st_looking_for_include, fcPrev,
    isWordChar]

/-- Characters of the include path are accumulated without output. -/
theorem scan_accum_path (nested : Ctx → World → Except Err World) (inc : List String)
    (ctx : Ctx) (l : List Char) (h : '>' ∉ l) :
    ∀ (fc buf rest : List Char) (w : World),
    runLoopF nested inc ctx .buildingIncludePath fc buf (l ++ rest) w =
    runLoopF nested inc ctx .buildingIncludePath (fc ++ l) buf rest w := by
  induction l with
  | nil => intro fc buf rest w; simp
  | cons c t ih =>
    intro fc buf rest w
    have hc : c ≠ '>' := by rintro rfl; exact h (List.mem_cons_self _ _)
    have ht : '>' ∉ t := fun hm => h (List.mem_cons_of_mem _ hm)
    simp only [List.cons_append, runLoopF, if_neg hc, List.append_eq]
    rw [ih ht]
    simp [List.append_assoc]

/-- Scanning a final `;` and newline just copies them and flushes. -/
theorem os_join_mk (d : String) (x : List Char) (hd : d ≠ "")
    (hd2 : pyEndswith d "/" = false) (hx1 : x ≠ []) (hx2 : '/' ∉ x) :
    os_join d (String.mk x) = String.mk (d.data ++ '/' :: x) := by
  have hpre : pyStartswith (String.mk x) "/" = false := by
    unfold pyStartswith
    cases x with
    | nil => exact absurd rfl hx1
    | cons c t =>
      have hc : c ≠ '/' := by rintro rfl; exact hx2 (List.mem_cons_self _ _)
      simp [List.isPrefixOf, Ne.symm hc]
  unfold os_join
  rw [if_neg (by simp [hpre]), if_neg hd, if_neg (by simp [hd2])]


/-! ## Verbatim scanning -/

/-- `_looking_for_word` writes the character and its transition does not
depend on the output buffer. -/
theorem st_lfw_split (fc : List Char) (c : Char) (buf : List Char) :
    st_looking_for_word fc c buf =
      ((st_looking_for_word fc c []).1, (st_looking_for_word fc c []).2.1, buf ++ [c]) := by
  simp only [st_looking_for_word]
  split <;> rfl

theorem st_bw_split (ii : Bool) (fc : List Char) (c : Char) (buf : List Char) :
    st_building_word ii fc c buf =
      ((st_building_word ii fc c []).1, (st_building_word ii fc c []).2.1, buf ++ [c]) := by
  unfold st_building_word st_looking_for_include st_looking_for_import
  dsimp only
  by_cases h1 : c = '/' ∧ fcPrev fc = some '/'
  · simp only [if_pos h1]
  · simp only [if_neg h1]
    by_cases h2 : c = '*' ∧ fcPrev fc = some '/'
    · simp only [if_pos h2]
    · simp only [if_neg h2]
      by_cases h3 : isWordChar c = true
      · simp only [if_pos h3]
      · simp only [if_neg h3]
        by_cases h4 : String.mk fc.dropLast = "include" ∨ String.mk fc.dropLast = "use"
        · simp only [if_pos h4, Bool.false_eq_true, if_false]
          by_cases h5 : c = ' ' ∨ c = '\t' ∨ c = '\n'
          · simp only [if_pos h5]
          · simp only [if_neg h5]
            by_cases h6 : c = '<'
            · simp only [if_pos h6]
            · simp only [if_neg h6]
        · simp only [if_neg h4]
          by_cases h7 : String.mk fc.dropLast = "import" ∧ ii = false
          · simp only [if_pos h7, Bool.false_eq_true, if_false]
            by_cases h8 : c = ')'
            · simp only [if_pos h8]
            · simp only [if_neg h8]
              by_cases h9 : c ≠ '"'
              · simp only [if_pos h9]
              · simp only [if_neg h9]
                by_cases h10 : ¬ pyEndswith (String.mk (pyStripSep fc)) "(\"" = true ∧
                    ¬ pyEndswith (String.mk (pyStripSep fc)) "file=\"" = true
                · simp only [if_pos h10]
                · simp only [if_neg h10]
          · simp only [if_neg h7]

theorem st_eol_split (fc : List Char) (c : Char) (buf : List Char) :
    st_looking_for_eol fc c true buf =
      ((st_looking_for_eol fc c true []).1, (st_looking_for_eol fc c true []).2.1, buf ++ [c]) := by
  simp only [st_looking_for_eol]
  split <;> rfl

theorem st_eoc_split (fc : List Char) (c : Char) (buf : List Char) :
    st_looking_for_end_of_comment fc c buf =
      ((st_looking_for_end_of_comment fc c []).1,
        (st_looking_for_end_of_comment fc c []).2.1, buf ++ [c]) := by
  simp only [st_looking_for_end_of_comment]
  split <;> rfl

theorem st_semi_split (fc : List Char) (c : Char) (buf : List Char) :
    st_looking_for_semicolon fc c true buf =
      ((st_looking_for_semicolon fc c true []).1,
        (st_looking_for_semicolon fc c true []).2.1, buf ++ [c]) := by
  simp only [st_looking_for_semicolon]
  split <;> rfl

theorem st_imp_split (fc : List Char) (c : Char) (buf : List Char) :
    st_looking_for_import fc c true buf =
      ((st_looking_for_import fc c true []).1,
        (st_looking_for_import fc c true []).2.1, buf ++ [c]) := by
  unfold st_looking_for_import
  dsimp only
  simp only [eq_self_iff_true, if_true]
  by_cases h8 : c = ')'
  · simp only [if_pos h8]
  · simp only [if_neg h8]
    by_cases h9 : c ≠ '"'
    · simp only [if_pos h9]
    · simp only [if_neg h9]
      by_cases h10 : ¬ pyEndswith (String.mk (pyStripSep fc)) "(\"" = true ∧
          ¬ pyEndswith (String.mk (pyStripSep fc)) "file=\"" = true
      · simp only [if_pos h10]
      · simp only [if_neg h10]

theorem st_inc_split (fc : List Char) (c : Char) (buf : List Char) :
    st_looking_for_include fc c true buf =
      ((st_looking_for_include fc c true []).1,
        (st_looking_for_include fc c true []).2.1, buf ++ [c]) := by
  unfold st_looking_for_include
  dsimp only
  simp only [eq_self_iff_true, if_true]
  by_cases h5 : c = ' ' ∨ c = '\t' ∨ c = '\n'
  · simp only [if_pos h5]
  · simp only [if_neg h5]
    by_cases h6 : c = '<'
    · simp only [if_pos h6]
    · simp only [if_neg h6]

/-- One step of the run loop from a copying state: the character is
written once and the (state, `file_chars`) transition is `scanStep`. -/
theorem runLoopF_verb_step (nested : Ctx → World → Except Err World) (inc : List String)
    (ctx : Ctx) (st : St) (fc buf : List Char) (c : Char) (rest : List Char) (w : World)
    (hst : verbSt st = true) :
    runLoopF nested inc ctx st fc buf (c :: rest) w =
      runLoopF nested inc ctx (scanStep ctx.ignore_imports st fc c).1
        (scanStep ctx.ignore_imports st fc c).2 (buf ++ [c]) rest w := by
  cases st
  case lookingForWord =>
    rw [runLoopF]
    dsimp only
    rw [st_lfw_split]
    rfl
  case buildingWord =>
    rw [runLoopF]
    dsimp only
    rw [st_bw_split]
    rfl
  case lookingForEol =>
    rw [runLoopF]
    dsimp only
    rw [st_eol_split]
    rfl
  case lookingForEndOfComment =>
    rw [runLoopF]
    dsimp only
    rw [st_eoc_split]
    rfl
  case lookingForSemicolon =>
    rw [runLoopF]
    dsimp only
    rw [st_semi_split]
    rfl
  case lookingForImport =>
    rw [runLoopF]
    dsimp only
    rw [st_imp_split]
    rfl
  case lookingForInclude =>
    rw [runLoopF]
    dsimp only
    rw [st_inc_split]
    rfl
  case buildImportPath => exact absurd hst (by simp [verbSt])
  case buildingIncludePath => exact absurd hst (by simp [verbSt])

/-- Scanning a chunk whose pure trace stays in the copying states writes
the chunk verbatim and changes nothing else. -/
theorem runLoopF_chunk (nested : Ctx → World → Except Err World) (inc : List String)
    (ctx : Ctx) :
    ∀ (s : List Char) (st : St) (fc buf rest : List Char) (w : World) (st2 : St)
      (fc2 : List Char), verbSt st = true →
      scanTxt ctx.ignore_imports st fc s = some (st2, fc2) →
      runLoopF nested inc ctx st fc buf (s ++ rest) w =
        runLoopF nested inc ctx st2 fc2 (buf ++ s) rest w := by
  intro s
  induction s with
  | nil =>
    intro st fc buf rest w st2 fc2 _ hscan
    rw [scanTxt] at hscan
    cases hscan
    simp
  | cons c s' ih =>
    intro st fc buf rest w st2 fc2 hst hscan
    rw [scanTxt] at hscan
    dsimp only at hscan
    by_cases hv : verbSt (scanStep ctx.ignore_imports st fc c).1 = true
    · rw [if_pos hv] at hscan
      rw [List.cons_append, runLoopF_verb_step nested inc ctx st fc buf c (s' ++ rest) w hst]
      rw [ih _ _ (buf ++ [c]) rest w st2 fc2 hv hscan]
      simp
    · rw [if_neg hv] at hscan
      cases hscan

/-- Traces started in the scanning state do not depend on the incoming
`file_chars`: the first word character resets the accumulator, and
whitespace keeps the trace in the scanning state. -/
theorem scanTxt_lfw_indep (ii : Bool) :
    ∀ (s fc0 fc1 : List Char),
      scanTxt ii .lookingForWord fc0 s = scanTxt ii .lookingForWord fc1 s ∨
      (∃ e0 e1, scanTxt ii .lookingForWord fc0 s = some (.lookingForWord, e0) ∧
        scanTxt ii .lookingForWord fc1 s = some (.lookingForWord, e1)) := by
  intro s
  induction s with
  | nil => intro fc0 fc1; exact Or.inr ⟨fc0, fc1, rfl, rfl⟩
  | cons c rest ih =>
    intro fc0 fc1
    rw [scanTxt, scanTxt]
    by_cases hc : c = '\n' ∨ c = ' ' ∨ c = '\t'
    · rw [show scanStep ii .lookingForWord fc0 c = (.lookingForWord, fc0 ++ [c]) by
        simp [scanStep, st_looking_for_word, hc]]
      rw [show scanStep ii .lookingForWord fc1 c = (.lookingForWord, fc1 ++ [c]) by
        simp [scanStep, st_looking_for_word, hc]]
      dsimp only
      simp only [verbSt, eq_self_iff_true, if_true]
      exact ih (fc0 ++ [c]) (fc1 ++ [c])
    · rw [show scanStep ii .lookingForWord fc0 c = (.buildingWord, [c]) by
        simp [scanStep, st_looking_for_word, hc]]
      rw [show scanStep ii .lookingForWord fc1 c = (.buildingWord, [c]) by
        simp [scanStep, st_looking_for_word, hc]]
      exact Or.inl rfl

theorem scanTxt_lfw_any (ii : Bool) (s e : List Char)
    (h : scanTxt ii .lookingForWord [] s = some (.lookingForWord, e)) (fc : List Char) :
    ∃ e2, scanTxt ii .lookingForWord fc s = some (.lookingForWord, e2) := by
  rcases scanTxt_lfw_indep ii s fc [] with heq | ⟨e0, _, h0, _⟩
  · exact ⟨e, heq.trans h⟩
  · exact ⟨e0, h0⟩

/-- C9.  Scanning a file that contains no include, use, or import
references — formalized as: the scanner's own state trace on the file
never begins consuming a reference path, so keywords inside comments,
keywords embedded in longer identifiers (`user`), and keyword tokens
never followed by `<` (such as `include;`) or never reaching `("`
(such as `import(v)`) are all allowed — writes the file to its output
target byte-for-byte and changes nothing else: the run reads the source
once, creates the target, and the final filesystem is the original one
plus the target holding exactly the source bytes. -/
theorem claim_C9 (fuel : Nat) (inc : List String) (ctx : Ctx) (w : World) (data : List Char)
    (hex : fsExists w.fs ctx.target_path = false)
    (hsrc : fsLookup w.fs ctx.source_path = some data)
    (href : referenceFree ctx.ignore_imports data = true) :
    runCAP (fuel + 1) inc ctx w =
      .ok (World.mk (fsWrite w.fs ctx.target_path data) w.used
        (w.readFiles ++ [ctx.source_path])) ∧
    fsLookup (fsWrite w.fs ctx.target_path data) ctx.target_path = some data := by
  constructor
  · rw [runCAP, if_neg (by simp [hex]), hsrc]
    dsimp only
    unfold referenceFree at href
    obtain ⟨⟨st2, fc2⟩, hr⟩ := Option.isSome_iff_exists.1 href
    conv_lhs => rw [show data = data ++ [] from (List.append_nil data).symm]
    rw [runLoopF_chunk (runCAP fuel inc) inc ctx data .lookingForWord [] [] [] _ st2 fc2
      rfl hr]
    rw [runLoopF]
    simp [fsWrite_fsWrite]
  · exact fsLookup_fsWrite_self _ _ _

theorem claim_C9_witness :
    runCAP 1 [] (Ctx.mk "/s/a.scad" "lib" "" "/o" "/o/a.scad" false)
        (World.mk [("/s/a.scad",
          "// include <x.scad>;\nuser = 1;\ninclude;\nimport(v);\n/* use <y> */ cube(1);\n".data)]
          [] []) =
      .ok (World.mk
        (fsWrite [("/s/a.scad",
          "// include <x.scad>;\nuser = 1;\ninclude;\nimport(v);\n/* use <y> */ cube(1);\n".data)]
          "/o/a.scad"
          "// include <x.scad>;\nuser = 1;\ninclude;\nimport(v);\n/* use <y> */ cube(1);\n".data)
        [] ["/s/a.scad"]) ∧
    fsLookup (fsWrite [("/s/a.scad",
        "// include <x.scad>;\nuser = 1;\ninclude;\nimport(v);\n/* use <y> */ cube(1);\n".data)]
        "/o/a.scad"
        "// include <x.scad>;\nuser = 1;\ninclude;\nimport(v);\n/* use <y> */ cube(1);\n".data)
      "/o/a.scad" =
      some "// include <x.scad>;\nuser = 1;\ninclude;\nimport(v);\n/* use <y> */ cube(1);\n".data :=
  claim_C9 0 [] (Ctx.mk "/s/a.scad" "lib" "" "/o" "/o/a.scad" false)
    (World.mk [("/s/a.scad",
      "// include <x.scad>;\nuser = 1;\ninclude;\nimport(v);\n/* use <y> */ cube(1);\n".data)]
      [] [])
    "// include <x.scad>;\nuser = 1;\ninclude;\nimport(v);\n/* use <y> */ cube(1);\n".data
    (by decide) rfl (by rfl)

/-! ## Bundling arbitrary dependency graphs -/

/-- Scanning the five characters of `use <` from the scanning state
recognizes the keyword and enters include-path building. -/
theorem scan_use_open (nested : Ctx → World → Except Err World) (inc : List String)
    (ctx : Ctx) (fc buf rest : List Char) (w : World) :
    runLoopF nested inc ctx .lookingForWord fc buf ("use <".data ++ rest) w =
    runLoopF nested inc ctx .buildingIncludePath [] (buf ++ "use <".data) rest w := by
  simp [runLoopF, st_looking_for_word, st_building_word, st_looking_for_include, fcPrev,
    isWordChar]

theorem fsLookup_append_left (l1 l2 : Fs) (p : String) (v : List Char)
    (h : fsLookup l1 p = some v) : fsLookup (l1 ++ l2) p = some v := by
  induction l1 with
  | nil => simp [fsLookup] at h
  | cons hd t ih =>
    obtain ⟨q, u⟩ := hd
    by_cases hp : q = p
    · simp only [fsLookup, if_pos hp] at h
      simp only [List.cons_append, fsLookup, if_pos hp]
      exact h
    · simp only [fsLookup, if_neg hp] at h
      simp only [List.cons_append, fsLookup, if_neg hp]
      exact ih h

theorem fsLookup_append_right (l1 l2 : Fs) (p : String)
    (h : fsLookup l1 p = none) : fsLookup (l1 ++ l2) p = fsLookup l2 p := by
  induction l1 with
  | nil => simp
  | cons hd t ih =>
    obtain ⟨q, u⟩ := hd
    by_cases hp : q = p
    · simp [fsLookup, hp] at h
    · simp only [fsLookup, if_neg hp] at h
      simp only [List.cons_append, fsLookup, if_neg hp]
      exact ih h

theorem fsLookup_not_mem (l : Fs) (p : String) (h : p ∉ l.map Prod.fst) :
    fsLookup l p = none := by
  induction l with
  | nil => rfl
  | cons hd t ih =>
    obtain ⟨q, u⟩ := hd
    simp only [List.map_cons, List.mem_cons] at h
    push_neg at h
    have hne : ¬ (q = p) := fun he => h.1 (Eq.symm he)
    simp only [fsLookup, if_neg hne]
    exact ih h.2

theorem fsExists_append (l1 l2 : Fs) (p : String) :
    fsExists (l1 ++ l2) p = (fsExists l1 p || fsExists l2 p) := by
  unfold fsExists
  cases hl : fsLookup l1 p with
  | some v => rw [fsLookup_append_left l1 l2 p v hl]; simp
  | none => rw [fsLookup_append_right l1 l2 p hl]; simp

theorem fsWrite_absent (l : Fs) (p : String) (v : List Char)
    (h : fsLookup l p = none) : fsWrite l p v = l ++ [(p, v)] := by
  induction l with
  | nil => rfl
  | cons hd t ih =>
    obtain ⟨q, u⟩ := hd
    by_cases hp : q = p
    · simp [fsLookup, hp] at h
    · simp only [fsLookup, if_neg hp] at h
      simp only [fsWrite, if_neg hp, List.cons_append]
      rw [ih h]

theorem fsWrite_append_skip (l1 l2 : Fs) (p : String) (v : List Char)
    (h : fsLookup l1 p = none) : fsWrite (l1 ++ l2) p v = l1 ++ fsWrite l2 p v := by
  induction l1 with
  | nil => simp
  | cons hd t ih =>
    obtain ⟨q, u⟩ := hd
    by_cases hp : q = p
    · simp [fsLookup, hp] at h
    · simp only [fsLookup, if_neg hp] at h
      simp only [List.cons_append, fsWrite, if_neg hp, List.append_eq]
      rw [ih h]

theorem nodeAt_mem (g : List GNode) (j : Nat) (h : j < g.length) : nodeAt g j ∈ g := by
  unfold nodeAt
  rw [List.getD_eq_getElem?_getD, List.getElem?_eq_getElem h]
  exact List.getElem_mem h

theorem map_fst_srcEntries (g : List GNode) :
    (srcEntries g).map Prod.fst = g.map GNode.src := by
  unfold srcEntries
  rw [List.map_map]
  rfl

theorem src_mem_map (g : List GNode) (j : Nat) (h : j < g.length) :
    (nodeAt g j).src ∈ g.map GNode.src :=
  List.mem_map_of_mem _ (nodeAt_mem g j h)

theorem tgt_mem_map (g : List GNode) (j : Nat) (h : j < g.length) :
    (nodeAt g j).tgt ∈ g.map GNode.tgt :=
  List.mem_map_of_mem _ (nodeAt_mem g j h)

theorem fsLookup_srcEntries (g : List GNode) :
    ∀ (j : Nat), j < g.length → (g.map GNode.src).Nodup →
    fsLookup (srcEntries g) (nodeAt g j).src = some (contentIn (nodeAt g j)) := by
  induction g with
  | nil => intro j h; simp at h
  | cons n t ih =>
    intro j hj hnd
    simp only [List.map_cons, List.nodup_cons] at hnd
    cases j with
    | zero =>
      simp only [srcEntries, List.map_cons, fsLookup, nodeAt, List.getD]
      simp [fsLookup]
    | succ j' =>
      have hj' : j' < t.length := by simpa using hj
      have hne : n.src ≠ (nodeAt t j').src := by
        intro he
        exact hnd.1 (he ▸ src_mem_map t j' hj')
      have hnode : nodeAt (n :: t) (j' + 1) = nodeAt t j' := by
        simp [nodeAt]
      rw [hnode]
      simp only [srcEntries, List.map_cons, fsLookup, if_neg (fun he => hne he)]
      exact ih j' hj' hnd.2

theorem nodup_map_inj (g : List GNode) (f : GNode → String) (h : (g.map f).Nodup) :
    ∀ (k j : Nat), k < g.length → j < g.length →
    f (nodeAt g k) = f (nodeAt g j) → k = j := by
  intro k j hk hj he
  have hk2 : (g.map f).get ⟨k, by simpa using hk⟩ = f (nodeAt g k) := by
    simp [List.get_map, nodeAt, List.getD_eq_getElem?_getD, List.getElem?_eq_getElem hk]
  have hj2 : (g.map f).get ⟨j, by simpa using hj⟩ = f (nodeAt g j) := by
    simp [List.get_map, nodeAt, List.getD_eq_getElem?_getD, List.getElem?_eq_getElem hj]
  have := List.Nodup.get_inj_iff h (i := ⟨k, by simpa using hk⟩) (j := ⟨j, by simpa using hj⟩)
  have h3 : (g.map f).get ⟨k, by simpa using hk⟩ = (g.map f).get ⟨j, by simpa using hj⟩ := by
    rw [hk2, hj2, he]
  simpa using this.1 h3

theorem addToSet_mem_noop (l : List String) (x : String) (h : x ∈ l) :
    addToSet l x = l := by
  simp [addToSet, h]

theorem usedFold_concat (g : List GNode) (V : List Nat) (j : Nat) (u0 : List String) :
    usedFold g (V ++ [j]) u0 =
      addToSet (usedFold g V u0) (os_abspath (os_dirname (nodeAt g j).src)) := by
  unfold usedFold
  rw [List.foldl_append]
  rfl

theorem foldl_addToSet_mem (g : List GNode) :
    ∀ (t : List Nat) (u : List String) (x : String), x ∈ u →
    x ∈ List.foldl (fun u k => addToSet u (os_abspath (os_dirname (nodeAt g k).src))) u t := by
  intro t
  induction t with
  | nil => intro u x h; simpa using h
  | cons m t2 ih =>
    intro u x h
    simp only [List.foldl_cons]
    exact ih _ _ (mem_addToSet_of_mem _ _ _ h)

theorem usedFold_mem (g : List GNode) (j : Nat) :
    ∀ (V : List Nat) (u0 : List String), j ∈ V →
    os_abspath (os_dirname (nodeAt g j).src) ∈ usedFold g V u0 := by
  intro V
  induction V with
  | nil => intro u0 h; simp at h
  | cons k t ih =>
    intro u0 h
    unfold usedFold
    simp only [List.foldl_cons]
    rcases List.mem_cons.1 h with he | hm
    · subst he
      exact foldl_addToSet_mem g t _ _ (mem_addToSet_self _ _)
    · exact ih _ hm

theorem reach_trans (g : List GNode) (a b c : Nat) (h1 : Reach g a b) (h2 : Reach g b c) :
    Reach g a c := by
  induction h2 with
  | refl => exact h1
  | step _ he ih => exact Reach.step ih he

theorem nodup_bound_length (n : Nat) : ∀ (V : List Nat), V.Nodup → (∀ k ∈ V, k < n) →
    V.length ≤ n := by
  intro V hnd hlt
  have hsub : V.toFinset ⊆ Finset.range n := by
    intro x hx
    simp only [List.mem_toFinset] at hx
    simpa using hlt x hx
  have := Finset.card_le_card hsub
  rwa [List.toFinset_card_of_nodup hnd, Finset.card_range] at this

theorem tgtMap_keys (g : List GNode) (P V : List Nat) (hV : ∀ k ∈ V, k < g.length) :
    ∀ p ∈ (V.map (tgtEntryG g P)).map Prod.fst, p ∈ g.map GNode.tgt := by
  intro p hp
  simp only [List.map_map, List.mem_map, Function.comp] at hp
  obtain ⟨k, hk, he⟩ := hp
  rw [← he]
  simp only [tgtEntryG]
  exact tgt_mem_map g k (hV k hk)

theorem fsLookup_tgtMap_none (g : List GNode) (P V : List Nat) (j : Nat)
    (hj : j < g.length) (hV : ∀ k ∈ V, k < g.length) (hjV : j ∉ V)
    (hndt : (g.map GNode.tgt).Nodup) :
    fsLookup (V.map (tgtEntryG g P)) (nodeAt g j).tgt = none := by
  apply fsLookup_not_mem
  intro hmem
  simp only [List.map_map, List.mem_map, Function.comp] at hmem
  obtain ⟨k, hk, he⟩ := hmem
  simp only [tgtEntryG] at he
  exact hjV ((nodup_map_inj g GNode.tgt hndt k j (hV k hk) hj he) ▸ hk)

theorem fsLookup_srcpart_tgt_none (g : List GNode) (j : Nat) (hj : j < g.length)
    (hwf3 : ∀ t ∈ g.map GNode.tgt, t ∉ g.map GNode.src) :
    fsLookup (srcEntries g) (nodeAt g j).tgt = none := by
  apply fsLookup_not_mem
  rw [map_fst_srcEntries]
  exact hwf3 _ (tgt_mem_map g j hj)

theorem fsExists_tgtMap_mem (g : List GNode) (P : List Nat) :
    ∀ (V : List Nat) (j : Nat), j ∈ V →
    fsExists (V.map (tgtEntryG g P)) (nodeAt g j).tgt = true := by
  intro V
  induction V with
  | nil => intro j h; simp at h
  | cons k t ih =>
    intro j hjV
    rcases List.mem_cons.1 hjV with he | hm
    · subst he
      simp [fsExists, fsLookup, tgtEntryG]
    · by_cases hk : (nodeAt g k).tgt = (nodeAt g j).tgt
      · simp [fsExists, fsLookup, tgtEntryG, hk]
      · simp only [fsExists, List.map_cons, fsLookup, tgtEntryG, if_neg hk]
        exact ih j hm

theorem tgt_exists_mem (g : List GNode) (P V : List Nat) (j : Nat) (hjV : j ∈ V) :
    fsExists (srcEntries g ++ V.map (tgtEntryG g P)) (nodeAt g j).tgt = true := by
  rw [fsExists_append, fsExists_tgtMap_mem g P V j hjV]
  simp

theorem tgt_exists_not_mem (g : List GNode) (P V : List Nat) (j : Nat)
    (hj : j < g.length) (hV : ∀ k ∈ V, k < g.length) (hjV : j ∉ V)
    (hndt : (g.map GNode.tgt).Nodup)
    (hwf3 : ∀ t ∈ g.map GNode.tgt, t ∉ g.map GNode.src) :
    fsExists (srcEntries g ++ V.map (tgtEntryG g P)) (nodeAt g j).tgt = false := by
  rw [fsExists_append]
  unfold fsExists
  rw [fsLookup_srcpart_tgt_none g j hj hwf3, fsLookup_tgtMap_none g P V j hj hV hjV hndt]
  rfl

theorem tgtMap_shift (g : List GNode) (P : List Nat) (V : List Nat) (j : Nat) (hjV : j ∉ V) :
    V.map (tgtEntryG g (j :: P)) = V.map (tgtEntryG g P) := by
  apply List.map_congr_left
  intro k hk
  have hkj : k ≠ j := fun he => hjV (he ▸ hk)
  by_cases hP : k ∈ P
  · simp [tgtEntryG, hP]
  · simp [tgtEntryG, hP, hkj]

theorem fs_create_step (g : List GNode) (P V : List Nat) (j : Nat)
    (hj : j < g.length) (hV : ∀ k ∈ V, k < g.length) (hjV : j ∉ V)
    (hndt : (g.map GNode.tgt).Nodup)
    (hwf3 : ∀ t ∈ g.map GNode.tgt, t ∉ g.map GNode.src) :
    fsWrite (srcEntries g ++ V.map (tgtEntryG g P)) (nodeAt g j).tgt [] =
      srcEntries g ++ (V ++ [j]).map (tgtEntryG g (j :: P)) := by
  rw [fsWrite_append_skip _ _ _ _ (fsLookup_srcpart_tgt_none g j hj hwf3)]
  rw [fsWrite_absent _ _ _ (fsLookup_tgtMap_none g P V j hj hV hjV hndt)]
  rw [List.map_append]
  rw [tgtMap_shift g P V j hjV]
  congr 1
  simp [tgtEntryG]

theorem fsWrite_tgtMap_update (g : List GNode) (P : List Nat) (j : Nat) (hjP : j ∉ P)
    (hj : j < g.length) (hndt : (g.map GNode.tgt).Nodup) :
    ∀ (V2 : List Nat), (∀ k ∈ V2, k < g.length) → j ∈ V2 → V2.Nodup →
    fsWrite (V2.map (tgtEntryG g (j :: P))) (nodeAt g j).tgt (contentOut (nodeAt g j)) =
      V2.map (tgtEntryG g P) := by
  intro V2
  induction V2 with
  | nil => intro _ h; simp at h
  | cons k t ih =>
    intro hb hm hnd
    rw [List.nodup_cons] at hnd
    rcases List.mem_cons.1 hm with he | hmt
    · subst he
      have h1 : tgtEntryG g (j :: P) j = ((nodeAt g j).tgt, []) := by
        simp [tgtEntryG]
      have h2 : tgtEntryG g P j = ((nodeAt g j).tgt, contentOut (nodeAt g j)) := by
        simp [tgtEntryG, hjP]
      rw [List.map_cons, List.map_cons, h1, h2]
      simp [fsWrite, tgtMap_shift g P t j hnd.1]
    · have hkj : k ≠ j := fun he => hnd.1 (he ▸ hmt)
      have hne : (nodeAt g k).tgt ≠ (nodeAt g j).tgt := fun he =>
        hkj (nodup_map_inj g GNode.tgt hndt k j (hb k (List.mem_cons_self _ _)) hj he)
      have h3 : tgtEntryG g (j :: P) k = tgtEntryG g P k := by
        by_cases hP : k ∈ P
        · simp [tgtEntryG, hP]
        · simp [tgtEntryG, hP, hkj]
      rw [List.map_cons, List.map_cons, h3]
      have hfst : (tgtEntryG g P k).1 = (nodeAt g k).tgt := rfl
      cases hE : tgtEntryG g P k with
      | mk q u =>
        have hq : q = (nodeAt g k).tgt := by rw [← hfst, hE]
        simp only [fsWrite, if_neg (hq ▸ hne)]
        rw [ih (fun x hx => hb x (List.mem_cons_of_mem _ hx)) hmt hnd.2]

theorem copyAndParse_init_eq (sp lib rid out tp : String) (ii : Bool) (w : World) :
    copyAndParse_init sp lib rid out tp ii w =
      (⟨sp, lib, "", out, tp, ii⟩,
        { w with used := addToSet w.used (os_abspath (os_dirname sp)) }) := rfl

theorem scan_kw_open (nested : Ctx → World → Except Err World) (inc : List String)
    (ctx : Ctx) (u : Bool) (fc buf rest : List Char) (w : World) :
    runLoopF nested inc ctx .lookingForWord fc buf (kwData u ++ rest) w =
    runLoopF nested inc ctx .buildingIncludePath [] (buf ++ kwData u) rest w := by
  cases u
  · exact scan_include_open nested inc ctx fc buf rest w
  · exact scan_use_open nested inc ctx fc buf rest w

/-- The resolution step of the scanner: a `>` closes the accumulated
include path. -/
theorem runLoopF_gt_step (nested : Ctx → World → Except Err World) (inc : List String)
    (ctx : Ctx) (fc buf rest : List Char) (w : World) :
    runLoopF nested inc ctx .buildingIncludePath fc buf ('>' :: rest) w =
      (match find_included_file inc ctx w.fs (String.mk ((fc ++ ['>']).dropLast)) with
      | .error e => .error e
      | .ok stn =>
        match copyAndParse_init stn.1 ctx.lib_dirname ctx.root_input_dir
            ctx.root_output_dir stn.2.1 ctx.ignore_imports w with
        | (ctx2, w2) =>
          match nested ctx2 w2 with
          | .error e => .error e
          | .ok w3 =>
            runLoopF nested inc ctx .lookingForWord (fc ++ ['>'])
              (buf ++ stn.2.2.data ++ ['>']) rest w3) := rfl

/-- Scanning the item list of node `j`: text chunks are copied verbatim,
each reference statement is resolved, rewritten, and its node bundled by
the nested invocation, and the visited set only grows. -/
theorem scan_items (inc : List String) (lib out : String) (ii : Bool) (g : List GNode)
    (nested : Ctx → World → Except Err World) (j : Nat) (P : List Nat)
    (u0 rf0 : List String) (L : Nat)
    (Hn : ∀ (m : Nat) (V' : List Nat), m < g.length → VGood g V' P → Closed g V' P →
      L + 1 ≤ V'.length →
      ∃ D2, nested (ctxOf lib out ii g m)
          { worldOf g V' P u0 rf0 with
            used := addToSet (worldOf g V' P u0 rf0).used
              (os_abspath (os_dirname (nodeAt g m).src)) } =
        .ok (worldOf g (V' ++ D2) P u0 rf0) ∧
        VGood g (V' ++ D2) P ∧ Closed g (V' ++ D2) P ∧ m ∈ V' ++ D2 ∧
        (∀ k ∈ D2, Reach g m k)) :
    ∀ (its : List GItem) (V : List Nat) (fc buf rest : List Char),
      (∀ it ∈ its, ItemWF inc lib out ii g j it) →
      VGood g V P → Closed g V P → L + 1 ≤ V.length →
      ∃ D fc2,
        runLoopF nested inc (ctxOf lib out ii g j) .lookingForWord fc buf
            ((its.map renderIn).flatten ++ rest) (worldOf g V P u0 rf0) =
          runLoopF nested inc (ctxOf lib out ii g j) .lookingForWord fc2
            (buf ++ (its.map renderOut).flatten) rest (worldOf g (V ++ D) P u0 rf0) ∧
        VGood g (V ++ D) P ∧ Closed g (V ++ D) P ∧
        (∀ k ∈ D, ∃ m2, (∃ it ∈ its, ∃ u lit rew, it = GItem.ref u lit rew m2) ∧
          Reach g m2 k) ∧
        (∀ it ∈ its, ∀ u lit rew m2, it = GItem.ref u lit rew m2 → m2 ∈ V ++ D) := by
  intro its
  induction its with
  | nil =>
    intro V fc buf rest _ hVG hCl hL
    refine ⟨[], fc, ?_, ?_, ?_, ?_, ?_⟩
    · simp
    · simpa using hVG
    · simpa using hCl
    · intro k hk; simp at hk
    · intro it hit; simp at hit
  | cons item its' ih =>
    intro V fc buf rest hits hVG hCl hL
    have hitem : ItemWF inc lib out ii g j item := hits item (List.mem_cons_self _ _)
    have hits' : ∀ it ∈ its', ItemWF inc lib out ii g j it :=
      fun it hit => hits it (List.mem_cons_of_mem _ hit)
    cases item with
    | txt s =>
      obtain ⟨fcE, hscan⟩ := hitem
      obtain ⟨fcE2, hscan2⟩ := scanTxt_lfw_any ii s fcE hscan fc
      obtain ⟨D, fc2, heq, hVG2, hCl2, hprov, hrefs⟩ :=
        ih V fcE2 (buf ++ s) rest hits' hVG hCl hL
      refine ⟨D, fc2, ?_, hVG2, hCl2, ?_, ?_⟩
      · simp only [List.map_cons, List.flatten_cons, renderIn, renderOut]
        rw [List.append_assoc]
        rw [runLoopF_chunk nested inc (ctxOf lib out ii g j) s .lookingForWord fc buf
          ((its'.map renderIn).flatten ++ rest) (worldOf g V P u0 rf0) .lookingForWord fcE2
          rfl hscan2]
        rw [heq]
        simp only [List.append_assoc]
      · intro k hk
        obtain ⟨m2, ⟨it, hit, hform⟩, hr⟩ := hprov k hk
        exact ⟨m2, ⟨it, List.mem_cons_of_mem _ hit, hform⟩, hr⟩
      · intro it hit u lit rew m2 hform
        rcases List.mem_cons.1 hit with he | hm
        · subst he; cases hform
        · exact hrefs it hm u lit rew m2 hform
    | ref u lit rew m =>
      obtain ⟨hm, hgt, hfind⟩ := hitem
      have hres : find_included_file inc (ctxOf lib out ii g j)
          (srcEntries g ++ V.map (tgtEntryG g P)) (String.mk lit) =
          .ok ((nodeAt g m).src, (nodeAt g m).tgt, rew) :=
        hfind (V.map (tgtEntryG g P)) (tgtMap_keys g P V hVG.2.1)
      obtain ⟨Dm, hnest, hVGm, hClm, hmem, hreach⟩ := Hn m V hm hVG hCl hL
      obtain ⟨D', fc2, heq', hVG2, hCl2, hprov, hrefs⟩ :=
        ih (V ++ Dm) (lit ++ ['>'])
          (buf ++ kwData u ++ rew.data ++ ['>']) rest hits' hVGm hClm
          (le_trans hL (by simp [List.length_append]))
      refine ⟨Dm ++ D', fc2, ?_, ?_, ?_, ?_, ?_⟩
      · simp only [List.map_cons, List.flatten_cons, renderIn, renderOut,
          List.append_assoc, List.singleton_append, List.cons_append]
        rw [scan_kw_open]
        rw [scan_accum_path nested inc (ctxOf lib out ii g j) lit hgt]
        simp only [List.nil_append]
        rw [runLoopF_gt_step]
        rw [List.dropLast_concat]
        rw [show (worldOf g V P u0 rf0).fs = srcEntries g ++ V.map (tgtEntryG g P) from rfl]
        rw [hres]
        dsimp only
        rw [copyAndParse_init_eq]
        dsimp only
        rw [show (ctxOf lib out ii g j).lib_dirname = lib from rfl,
          show (ctxOf lib out ii g j).root_output_dir = out from rfl,
          show (ctxOf lib out ii g j).ignore_imports = ii from rfl]
        rw [show (⟨(nodeAt g m).src, lib, "", out, (nodeAt g m).tgt, ii⟩ : Ctx) =
          ctxOf lib out ii g m from rfl]
        rw [hnest]
        dsimp only
        rw [heq']
        simp only [List.append_assoc, List.singleton_append]
      · rw [show V ++ (Dm ++ D') = (V ++ Dm) ++ D' from by rw [List.append_assoc]]
        exact hVG2
      · rw [show V ++ (Dm ++ D') = (V ++ Dm) ++ D' from by rw [List.append_assoc]]
        exact hCl2
      · intro k hk
        rcases List.mem_append.1 hk with hkD | hkD
        · exact ⟨m, ⟨GItem.ref u lit rew m, List.mem_cons_self _ _, u, lit, rew, rfl⟩,
            hreach k hkD⟩
        · obtain ⟨m2, ⟨it, hit, hform⟩, hr⟩ := hprov k hkD
          exact ⟨m2, ⟨it, List.mem_cons_of_mem _ hit, hform⟩, hr⟩
      · intro it hit u2 lit2 rew2 m2 hform
        rcases List.mem_cons.1 hit with he | hmt
        · subst he
          cases hform
          rw [show V ++ (Dm ++ D') = (V ++ Dm) ++ D' from by rw [List.append_assoc]]
          exact List.mem_append_left _ hmem
        · rw [show V ++ (Dm ++ D') = (V ++ Dm) ++ D' from by rw [List.append_assoc]]
          exact hrefs it hmt u2 lit2 rew2 m2 hform

/-- One (possibly recursive) coordinator invocation on node `j`: with
enough fuel it succeeds, visiting `j` and a set of nodes reachable from
`j`, and preserves the world invariant. -/
theorem graph_step (inc : List String) (lib out : String) (ii : Bool) (g : List GNode)
    (u0 rf0 : List String) (hwf : GraphWF inc lib out ii g) :
    ∀ (fuel : Nat) (j : Nat) (V P : List Nat), j < g.length →
      VGood g V P → Closed g V P → g.length < fuel + V.length →
      ∃ D, runCAP fuel inc (ctxOf lib out ii g j)
          { worldOf g V P u0 rf0 with
            used := addToSet (worldOf g V P u0 rf0).used
              (os_abspath (os_dirname (nodeAt g j).src)) } =
        .ok (worldOf g (V ++ D) P u0 rf0) ∧
        VGood g (V ++ D) P ∧ Closed g (V ++ D) P ∧ j ∈ V ++ D ∧
        (∀ k ∈ D, Reach g j k) := by
  intro fuel
  induction fuel with
  | zero =>
    intro j V P hj hVG hCl hfuel
    have := nodup_bound_length g.length V hVG.1 hVG.2.1
    omega
  | succ fuel ihf =>
    intro j V P hj hVG hCl hfuel
    by_cases hjV : j ∈ V
    · refine ⟨[], ?_, by simpa using hVG, by simpa using hCl, by simpa using hjV,
        by intro k hk; simp at hk⟩
      rw [runCAP]
      dsimp only [worldOf, ctxOf]
      rw [if_pos (tgt_exists_mem g P V j hjV)]
      rw [addToSet_mem_noop _ _ (usedFold_mem g j V u0 hjV)]
      rw [List.append_nil]
    · have hjP : j ∉ P := fun hp => hjV (hVG.2.2 j hp)
      have hVG1 : VGood g (V ++ [j]) (j :: P) := by
        refine ⟨?_, ?_, ?_⟩
        · simp [List.nodup_append, hVG.1, hjV]
        · intro k hk
          rcases List.mem_append.1 hk with h | h
          · exact hVG.2.1 k h
          · simp at h; subst h; exact hj
        · intro k hk
          rcases List.mem_cons.1 hk with he | hm
          · subst he; exact List.mem_append_right _ (List.mem_singleton.2 rfl)
          · exact List.mem_append_left _ (hVG.2.2 k hm)
      have hCl1 : Closed g (V ++ [j]) (j :: P) := by
        intro k hk hkP m hedge
        have hkj : k ≠ j := fun he => hkP (he ▸ List.mem_cons_self _ _)
        have hkV : k ∈ V := by
          rcases List.mem_append.1 hk with h | h
          · exact h
          · simp at h; exact absurd h hkj
        have hkP2 : k ∉ P := fun hp => hkP (List.mem_cons_of_mem _ hp)
        exact List.mem_append_left _ (hCl k hkV hkP2 m hedge)
      have hitems : ∀ it ∈ (nodeAt g j).items, ItemWF inc lib out ii g j it :=
        hwf.2.2.2 j hj
      have Hn : ∀ (m : Nat) (V' : List Nat), m < g.length → VGood g V' (j :: P) →
          Closed g V' (j :: P) → V.length + 1 ≤ V'.length →
          ∃ D2, runCAP fuel inc (ctxOf lib out ii g m)
              { worldOf g V' (j :: P) u0 rf0 with
                used := addToSet (worldOf g V' (j :: P) u0 rf0).used
                  (os_abspath (os_dirname (nodeAt g m).src)) } =
            .ok (worldOf g (V' ++ D2) (j :: P) u0 rf0) ∧
            VGood g (V' ++ D2) (j :: P) ∧ Closed g (V' ++ D2) (j :: P) ∧
            m ∈ V' ++ D2 ∧ (∀ k ∈ D2, Reach g m k) :=
        fun m V' hm hVG' hCl' hlen => ihf m V' (j :: P) hm hVG' hCl' (by omega)
      obtain ⟨D2, fc2, heq, hVG2, hCl2, hprov, hrefs⟩ :=
        scan_items inc lib out ii g (runCAP fuel inc) j (j :: P) u0 rf0 V.length Hn
          (nodeAt g j).items (V ++ [j]) [] [] [] hitems hVG1 hCl1 (by simp)
      refine ⟨j :: D2, ?_, ?_, ?_, ?_, ?_⟩
      · rw [runCAP]
        dsimp only [worldOf, ctxOf] at heq ⊢
        rw [if_neg (by
          rw [tgt_exists_not_mem g P V j hj hVG.2.1 hjV hwf.2.1 hwf.2.2.1]
          simp)]
        rw [fsLookup_append_left _ _ _ _ (fsLookup_srcEntries g j hj hwf.1)]
        dsimp only
        rw [fs_create_step g P V j hj hVG.2.1 hjV hwf.2.1 hwf.2.2.1]
        rw [show addToSet (usedFold g V u0)
            (os_abspath (os_dirname (nodeAt g j).src)) = usedFold g (V ++ [j]) u0 from
          (usedFold_concat g V j u0).symm]
        rw [show (rf0 ++ V.map (fun k => (nodeAt g k).src)) ++ [(nodeAt g j).src] =
            rf0 ++ (V ++ [j]).map (fun k => (nodeAt g k).src) from by
          simp [List.map_append, List.append_assoc]]
        rw [show contentIn (nodeAt g j) =
          ((nodeAt g j).items.map renderIn).flatten ++ [] from by simp [contentIn]]
        rw [heq]
        rw [runLoopF]
        dsimp only [ctxOf]
        rw [show ([] : List Char) ++ ((nodeAt g j).items.map renderOut).flatten =
          contentOut (nodeAt g j) from by simp [contentOut]]
        rw [fsWrite_append_skip _ _ _ _ (fsLookup_srcpart_tgt_none g j hj hwf.2.2.1)]
        rw [fsWrite_tgtMap_update g P j hjP hj hwf.2.1 ((V ++ [j]) ++ D2) hVG2.2.1
          (List.mem_append_left _ (List.mem_append_right _ (List.mem_singleton.2 rfl)))
          hVG2.1]
        rw [show (V ++ [j]) ++ D2 = V ++ (j :: D2) from by simp]
      · have h1 : VGood g (V ++ j :: D2) (j :: P) := by
          rw [show V ++ j :: D2 = (V ++ [j]) ++ D2 from by simp]
          exact hVG2
        exact ⟨h1.1, h1.2.1, fun k hk => h1.2.2 k (List.mem_cons_of_mem _ hk)⟩
      · intro k hk hkP m hedge
        have hk2 : k ∈ (V ++ [j]) ++ D2 := by
          rw [show (V ++ [j]) ++ D2 = V ++ (j :: D2) from by simp]
          exact hk
        by_cases hkj : k = j
        · rw [hkj] at hedge
          obtain ⟨it, hit, u, lit, rew, hform⟩ := hedge
          have : m ∈ (V ++ [j]) ++ D2 := hrefs it hit u lit rew m hform
          rw [show (V ++ [j]) ++ D2 = V ++ (j :: D2) from by simp] at this
          exact this
        · have : m ∈ (V ++ [j]) ++ D2 :=
            hCl2 k hk2 (fun hc => (List.mem_cons.1 hc).elim hkj hkP) m hedge
          rw [show (V ++ [j]) ++ D2 = V ++ (j :: D2) from by simp] at this
          exact this
      · exact List.mem_append_right _ (List.mem_cons_self _ _)
      · intro k hk
        rcases List.mem_cons.1 hk with he | hm
        · subst he; exact Reach.refl
        · obtain ⟨m2, ⟨it, hit, u, lit, rew, hform⟩, hr⟩ := hprov k hm
          exact reach_trans g j m2 k (Reach.step Reach.refl ⟨it, hit, u, lit, rew, hform⟩) hr

/-- C2.  Bundling terminates and produces exactly one output copy of
each file on every cyclic or diamond-shaped include/use dependency
graph: for an arbitrary well-formed graph `g` of source files — any
number of nodes, any adjacency (cycles of any length, self-includes,
diamonds), contents that interleave arbitrary reference-free text with
`include <...>`/`use <...>` statements, resolved relatively or through
a library root as recorded per edge — running the coordinator on any
entry node with fuel `|g| + 1` (so the recursion depth is a priori
bounded by the number of files) succeeds, reads each visited source
exactly once, adds exactly one output target per visited node holding
its rewritten content, visits exactly the nodes reachable from the
entry (every visited node is reachable, and the visited set is closed
under references), and records each contributing directory once. -/
theorem claim_C2 (inc : List String) (lib out : String) (ii : Bool) (g : List GNode)
    (e : Nat) (u0 rf0 : List String)
    (hwf : GraphWF inc lib out ii g) (he : e < g.length) :
    ∃ D, runCAP (g.length + 1) inc
        (copyAndParse_init (nodeAt g e).src lib "" out (nodeAt g e).tgt ii
          (worldOf g [] [] u0 rf0)).1
        (copyAndParse_init (nodeAt g e).src lib "" out (nodeAt g e).tgt ii
          (worldOf g [] [] u0 rf0)).2 = .ok (worldOf g D [] u0 rf0) ∧
      D.Nodup ∧ (∀ k ∈ D, k < g.length) ∧ e ∈ D ∧
      (∀ k ∈ D, Reach g e k) ∧
      (∀ k ∈ D, ∀ m, Edge g k m → m ∈ D) ∧
      (D.map fun k => (nodeAt g k).src).Nodup ∧
      (D.map fun k => (nodeAt g k).tgt).Nodup := by
  obtain ⟨D, hrun, hVG, hCl, hmem, hreach⟩ :=
    graph_step inc lib out ii g u0 rf0 hwf (g.length + 1) e [] [] he
      ⟨List.nodup_nil, by intro k hk; simp at hk, by intro k hk; simp at hk⟩
      (by intro k hk; simp at hk) (by simp)
  simp only [List.nil_append] at hrun hVG hCl hmem hreach
  have hbound : ∀ k ∈ D, k < g.length := hVG.2.1
  refine ⟨D, hrun, hVG.1, hbound, hmem, hreach, ?_, ?_, ?_⟩
  · intro k hk m hedge
    exact hCl k hk (by simp) m hedge
  · exact List.Nodup.map_on
      (fun x hx y hy hef => nodup_map_inj g GNode.src hwf.1 x y (hbound x hx) (hbound y hy) hef)
      hVG.1
  · exact List.Nodup.map_on
      (fun x hx y hy hef => nodup_map_inj g GNode.tgt hwf.2.1 x y (hbound x hx) (hbound y hy) hef)
      hVG.1

/-- A reference that resolves relative to the referencing file's
directory satisfies the per-edge well-formedness condition. -/
theorem refWF_rel (inc : List String) (lib out : String) (ii : Bool) (g : List GNode)
    (i j : Nat) (lit : List Char) (hj : j < g.length)
    (h1 : os_join (os_dirname (nodeAt g i).src) (String.mk lit) = (nodeAt g j).src)
    (h2 : os_join (os_dirname (nodeAt g i).tgt) (String.mk lit) = (nodeAt g j).tgt)
    (hnd : (g.map GNode.src).Nodup) :
    ∀ extra : Fs, (∀ p ∈ extra.map Prod.fst, p ∈ g.map GNode.tgt) →
      find_included_file inc (ctxOf lib out ii g i) (srcEntries g ++ extra)
        (String.mk lit) = .ok ((nodeAt g j).src, (nodeAt g j).tgt, String.mk lit) := by
  intro extra _
  unfold find_included_file
  dsimp only [ctxOf]
  rw [h1, h2]
  rw [if_pos (by
    rw [fsExists_append]
    unfold fsExists
    rw [fsLookup_srcEntries g j hj hnd]
    rfl)]

/-- A reference that resolves through the (single) configured library
root satisfies the per-edge well-formedness condition. -/
theorem refWF_root1 (r : String) (lib out : String) (ii : Bool) (g : List GNode)
    (i j : Nat) (lit : List Char) (rew : String) (hj : j < g.length)
    (h0 : os_join (os_dirname (nodeAt g i).src) (String.mk lit) ∉ g.map GNode.src)
    (h0b : os_join (os_dirname (nodeAt g i).src) (String.mk lit) ∉ g.map GNode.tgt)
    (h1 : os_join r (String.mk lit) = (nodeAt g j).src)
    (h2 : os_join (os_join out lib) (String.mk lit) = (nodeAt g j).tgt)
    (h3 : os_relpath (os_join (os_join out lib) (String.mk lit))
        (os_dirname (nodeAt g i).tgt) = rew)
    (hnd : (g.map GNode.src).Nodup) :
    ∀ extra : Fs, (∀ p ∈ extra.map Prod.fst, p ∈ g.map GNode.tgt) →
      find_included_file [r] (ctxOf lib out ii g i) (srcEntries g ++ extra)
        (String.mk lit) = .ok ((nodeAt g j).src, (nodeAt g j).tgt, rew) := by
  intro extra hextra
  have hne : fsExists (srcEntries g ++ extra)
      (os_join (os_dirname (nodeAt g i).src) (String.mk lit)) = false := by
    rw [fsExists_append]
    unfold fsExists
    rw [fsLookup_not_mem _ _ (by rw [map_fst_srcEntries]; exact h0)]
    rw [fsLookup_not_mem _ _ (fun hmem => h0b (hextra _ hmem))]
    rfl
  have hhit : fsExists (srcEntries g ++ extra) (os_join r (String.mk lit)) = true := by
    rw [h1, fsExists_append]
    unfold fsExists
    rw [fsLookup_srcEntries g j hj hnd]
    rfl
  unfold find_included_file
  dsimp only [ctxOf]
  rw [if_neg (by rw [hne]; simp)]
  rw [show List.find? (fun pre => fsExists (srcEntries g ++ extra)
      (os_join pre (String.mk lit))) [r] = some r from by
    rw [List.find?]
    rw [hhit]]
  dsimp only
  rw [h3, h1, h2]

theorem claim_C2_witness :
    ∃ D, runCAP (gW.length + 1) ["/LIB"]
        (copyAndParse_init (nodeAt gW 0).src "lib" "" "/out" (nodeAt gW 0).tgt false
          (worldOf gW [] [] [] [])).1
        (copyAndParse_init (nodeAt gW 0).src "lib" "" "/out" (nodeAt gW 0).tgt false
          (worldOf gW [] [] [] [])).2 = .ok (worldOf gW D [] [] []) ∧
      D.Nodup ∧ (∀ k ∈ D, k < gW.length) ∧ 0 ∈ D ∧
      (∀ k ∈ D, Reach gW 0 k) ∧
      (∀ k ∈ D, ∀ m, Edge gW k m → m ∈ D) ∧
      (D.map fun k => (nodeAt gW k).src).Nodup ∧
      (D.map fun k => (nodeAt gW k).tgt).Nodup :=
  claim_C2 ["/LIB"] "lib" "/out" false gW 0 [] []
    (by
      refine ⟨by decide, by decide, by decide, ?_⟩
      intro i hi it hit
      have hi' : i < 4 := hi
      interval_cases i
      · simp only [nodeAt, gW] at hit
        simp at hit
        rcases hit with rfl | rfl | rfl | rfl | rfl | rfl | rfl
        · exact ⟨_, rfl⟩
        · exact ⟨by decide, by decide,
            refWF_root1 "/LIB" "lib" "/out" false gW 0 1 "l1.scad".data "lib/l1.scad"
              (by decide) (by decide) (by decide) rfl rfl rfl (by decide)⟩
        · exact ⟨_, rfl⟩
        · exact ⟨by decide, by decide,
            refWF_root1 "/LIB" "lib" "/out" false gW 0 2 "l2.scad".data "lib/l2.scad"
              (by decide) (by decide) (by decide) rfl rfl rfl (by decide)⟩
        · exact ⟨_, rfl⟩
        · exact ⟨by decide, by decide,
            refWF_rel ["/LIB"] "lib" "/out" false gW 0 3 "sub/b.scad".data
              (by decide) rfl rfl (by decide)⟩
        · exact ⟨_, rfl⟩
      · simp only [nodeAt, gW] at hit
        simp at hit
        rcases hit with rfl | rfl
        · exact ⟨by decide, by decide,
            refWF_rel ["/LIB"] "lib" "/out" false gW 1 2 "l2.scad".data
              (by decide) rfl rfl (by decide)⟩
        · exact ⟨_, rfl⟩
      · simp only [nodeAt, gW] at hit
        simp at hit
        rcases hit with rfl | rfl
        · exact ⟨by decide, by decide,
            refWF_rel ["/LIB"] "lib" "/out" false gW 2 1 "l1.scad".data
              (by decide) rfl rfl (by decide)⟩
        · exact ⟨_, rfl⟩
      · simp only [nodeAt, gW] at hit
        simp at hit
        rcases hit with rfl
        exact ⟨_, rfl⟩)
    (by decide)
end OSRT
